import Mathlib

/-!
# javelin: a shallow embedding of `javelin.go` and its provisioning pipeline

The Go program keeps all of its state in one `FileManager` value that the
pipeline stages mutate in turn.  Each stage is embedded here as a function
from the state before to the state after, together with the `error` the Go
method returns.  Everything the stages obtain from outside the program (the
HTTP exchange, the file system, the registry tools, the console) is passed in
as an explicit oracle, so that every theorem holds for every behaviour of the
outside world.

Strings are lists of Unicode code points.  The manifest strings come out of
`encoding/json`, which only produces valid UTF-8, and on valid UTF-8 the
byte-wise operations of the Go `strings` package used by the program
(`HasPrefix`, `Split` on an ASCII separator, `Join`, `==`, `<`) agree with the
same operations on code points.
-/

namespace Javelin

/-- Go `string`. -/
abbrev Str := List Char

/-- Go `error` value that is not `nil`; only its presence matters to the program. -/
structure GoError where
  msg : Str
  deriving DecidableEq, Repr

/-! ## The parts of the Go standard library the program calls -/

/-- `strings.HasPrefix(s, prefix)`. -/
def hasPrefix (s pre : Str) : Bool := pre.isPrefixOf s

/-- `strings.Split(s, sep)` for a separator of one ASCII character: the
pieces between the separators, `[""]` for the empty string. -/
def split (sep : Char) : Str → List Str
  | [] => [[]]
  | c :: cs =>
    if c = sep then [] :: split sep cs
    else
      match split sep cs with
      | [] => [[c]]
      | h :: t => (c :: h) :: t

/-- `strings.Join(elems, sep)`. -/
def join (sep : Str) : List Str → Str
  | [] => []
  | [a] => a
  | a :: b :: rest => a ++ sep ++ join sep (b :: rest)

/-- `unicode.IsSpace`: the Latin-1 spaces and the code points with the
Unicode `White_Space` property. -/
def isSpace (c : Char) : Bool :=
  let n := c.toNat
  (9 ≤ n && n ≤ 13) || n = 32 || n = 0x85 || n = 0xA0 || n = 0x1680 ||
    (0x2000 ≤ n && n ≤ 0x200A) || n = 0x2028 || n = 0x2029 || n = 0x202F ||
    n = 0x205F || n = 0x3000

/-- `strings.TrimSpace(s)`: `s` without its leading and trailing white space. -/
def trimSpace (s : Str) : Str :=
  ((s.dropWhile isSpace).reverse.dropWhile isSpace).reverse

/-- Go `a < b` on strings: lexicographic on bytes, which on valid UTF-8 is
lexicographic on code points. -/
def strLt : Str → Str → Bool
  | _, [] => false
  | [], _ :: _ => true
  | a :: as, b :: bs =>
    if a < b then true else if b < a then false else strLt as bs

/-- Go `a <= b` on strings, that is `!(b < a)`. -/
def strLe (a b : Str) : Bool := !strLt b a

/-- `sort.Strings(x)`: `x` in increasing order.  The order on strings is
total, so the sorted arrangement is unique and any sorting algorithm computes
it; an insertion sort is used here. -/
def sortStrings (x : List Str) : List Str :=
  List.insertionSort (fun a b => strLe a b = true) x

/-- The library behaviour that the language leaves open and the program
relies on: Unicode lower-casing, the unstable `sort.Slice`, and the iteration
order of a map. -/
structure GoRuntime where
  /-- `strings.ToLower`. -/
  toLower : Str → Str
  /-- `sort.Slice(x, less)`: it only swaps elements, so the result is a
  rearrangement of `x`; ties may come out in any order. -/
  sortSlice : (Str → Str → Bool) → List Str → List Str
  sortSlice_perm : ∀ less x, (sortSlice less x).Perm x
  /-- The order in which `for k := range m` visits the keys of a map whose
  keys were inserted in the order given. -/
  rangeKeys : List Str → List Str
  rangeKeys_perm : ∀ keys, (rangeKeys keys).Perm keys

/-- A runtime to evaluate the definitions with: ASCII lower-casing, a stable
insertion sort, and map iteration in insertion order. -/
def simpleRuntime : GoRuntime where
  toLower := fun s => s.map Char.toLower
  sortSlice := fun less x => List.insertionSort (fun a b => less b a = false) x
  sortSlice_perm := fun _ x => List.perm_insertionSort _ x
  rangeKeys := fun keys => keys
  rangeKeys_perm := fun keys => List.Perm.refl keys

/-- The file-system calls of the selection stage. -/
structure FileSystem where
  /-- `filepath.Join(a, b)`. -/
  joinPath : Str → Str → Str
  /-- `os.MkdirAll(path, 0755)`: `none` is Go's `nil`. -/
  mkdirAll : Str → Option GoError

/-- A file system on which no directory can be created. -/
def readOnlyFileSystem : FileSystem where
  joinPath := fun a b => a ++ '\\' :: b
  mkdirAll := fun _ => some ⟨"read-only file system".toList⟩

/-- A file system on which every directory can be created. -/
def okFileSystem : FileSystem where
  joinPath := fun a b => a ++ '\\' :: b
  mkdirAll := fun _ => none

/-! ## String constants of `javelin.go` -/

/-- The constant `defaultURL` (line 22). -/
def defaultURL : Str := "https://ncs.nova.sktelecom.com".toList

/-- The working directory `C:\projects` (line 142). -/
def cProjects : Str := "C:\\projects".toList

/-- The literal `"extensions"` (lines 211, 272). -/
def extensionsName : Str := "extensions".toList

/-- The literal `"extensions/"` (line 287). -/
def extensionsSlash : Str := "extensions/".toList

/-- The literal `"microsoft-jdk"` (lines 236, 247). -/
def jdkMarker : Str := "microsoft-jdk".toList

/-- The literal `"common"` (lines 259, 277). -/
def commonCategory : Str := "common".toList

/-! ## Utility functions of `javelin.go` -/

/-- `filterFiles` (lines 551-559). -/
def filterFiles (files : List Str) (predicate : Str → Bool) : List Str :=
  files.foldl (fun result file => if predicate file then result ++ [file] else result) []

/-- One iteration of the loop of `uniqueStrings`: the state is the key set of
the map `keys` and `result`. -/
def uniqueStep (st : List Str × List Str) (entry : Str) : List Str × List Str :=
  if st.1.contains entry then st else (entry :: st.1, st.2 ++ [entry])

/-- `uniqueStrings` (lines 561-571). -/
def uniqueStrings (slice : List Str) : List Str :=
  (slice.foldl uniqueStep ([], [])).2

/-- `contains` (lines 573-580). -/
def contains : List Str → Str → Bool
  | [], _ => false
  | s :: rest, item => if s = item then true else contains rest item

/-- `difference` (lines 582-594); the map `mb` is the set of the elements of `b`. -/
def difference (a b : List Str) : List Str :=
  a.foldl (fun result x => if !(b.contains x) then result ++ [x] else result) []

/-! ## The controller state -/

/-- `FileManager` (lines 25-34). -/
structure FileManager where
  baseURL : Str
  baseFiles : List Str
  extensionCategory : List Str
  allFiles : List Str
  targetFiles : List Str
  targetExtensionCategory : List Str
  procDir : Str
  existsDirs : List Str
  deriving DecidableEq, Repr

/-- The value `main` builds (lines 50-52) with `procDir` set by `run` (line 69);
every slice is `nil`. -/
def FileManager.fresh (baseURL procDir : Str) : FileManager :=
  { baseURL := baseURL, baseFiles := [], extensionCategory := [], allFiles := [],
    targetFiles := [], targetExtensionCategory := [], procDir := procDir, existsDirs := [] }

/-! ## `fetchRemoteFiles` -/

/-- JSON value, as `encoding/json` reads it; strings are already unescaped. -/
inductive Json where
  | null
  | bool (b : Bool)
  | number (digits : Str)
  | str (s : Str)
  | arr (elems : List Json)
  | obj (members : List (Str × Json))

/-- `encoding/json` storing one array element into a Go `string`: a JSON
string is stored, `null` leaves the element at its zero value `""`, and any
other value is an `UnmarshalTypeError`. -/
def decodeElement : Json → Except GoError Str
  | .str s => .ok s
  | .null => .ok []
  | _ => .error ⟨"json: cannot unmarshal into Go value of type string".toList⟩

/-- `encoding/json` storing the elements of an array into a `[]string`; the
first element that cannot be stored gives the error that is returned. -/
def decodeElements : List Json → Except GoError (List Str)
  | [] => .ok []
  | e :: rest =>
    match decodeElement e with
    | .error err => .error err
    | .ok s =>
      match decodeElements rest with
      | .error err => .error err
      | .ok l => .ok (s :: l)

/-- The call `json.NewDecoder(resp.Body).Decode(&files)` with `files` a nil
`[]string` (lines 202-203).  The argument is the first JSON value of the body,
or the error of reading one (an empty or malformed body).  `null` leaves
`files` nil, an array is stored element by element, and any other value is an
`UnmarshalTypeError`. -/
def decodeStrings : Except GoError Json → Except GoError (List Str)
  | .error err => .error err
  | .ok .null => .ok []
  | .ok (.arr elems) => decodeElements elems
  | .ok _ => .error ⟨"json: cannot unmarshal into Go value of type []string".toList⟩

/-- What the program sees of the response to the list request: the status
code, which it never reads, and the body, given by its first JSON value or by
the error of reading one. -/
structure Response where
  statusCode : Nat
  body : Except GoError Json

/-- The HTTP exchange of `fetchRemoteFiles`. -/
structure ListExchange where
  /-- `http.NewRequest("GET", url, nil)`. -/
  newRequest : Str → Option GoError
  /-- `client.Do(req)`. -/
  doRequest : Str → Except GoError Response

/-- An exchange that answers with the given status code and body. -/
def ListExchange.answering (status : Nat) (body : Except GoError Json) : ListExchange where
  newRequest := fun _ => none
  doRequest := fun _ => .ok ⟨status, body⟩

/-- The JSON array of the strings of `m`. -/
def jsonStrings (m : List Str) : Json := .arr (m.map .str)

/-- `extensionCategoryMap[key] = true` on the key set of the map. -/
def mapSet (m : List Str) (key : Str) : List Str :=
  if m.contains key then m else m ++ [key]

/-- Body of the loop at lines 209-219; the state is the `FileManager` and the
key set of `extensionCategoryMap`. -/
def partitionStep (st : FileManager × List Str) (item : Str) : FileManager × List Str :=
  let fm := { st.1 with allFiles := st.1.allFiles ++ [item] }
  if !hasPrefix item extensionsName then
    ({ fm with baseFiles := fm.baseFiles ++ [item] }, st.2)
  else
    match split '/' item with
    | _ :: category :: _ => (fm, mapSet st.2 category)
    | _ => (fm, st.2)

/-- Lines 207-230 of `fetchRemoteFiles`: partition the decoded list, collect
the categories, sort both. -/
def partitionFiles (G : GoRuntime) (fm : FileManager) (files : List Str) : FileManager :=
  let st := files.foldl partitionStep (fm, [])
  let fm := st.1
  let fm := { fm with extensionCategory := fm.extensionCategory ++ G.rangeKeys st.2 }
  let fm := { fm with extensionCategory := sortStrings fm.extensionCategory }
  { fm with baseFiles :=
      G.sortSlice (fun a b => strLt (G.toLower a) (G.toLower b)) fm.baseFiles }

/-- `fetchRemoteFiles` (lines 189-231): the state after the call and the
returned error. -/
def fetchRemoteFiles (G : GoRuntime) (net : ListExchange) (fm : FileManager) :
    FileManager × Option GoError :=
  match net.newRequest (fm.baseURL ++ "/getAll".toList) with
  | some err => (fm, some err)
  | none =>
    match net.doRequest (fm.baseURL ++ "/getAll".toList) with
    | .error err => (fm, some err)
    | .ok resp =>
      match decodeStrings resp.body with
      | .error err => (fm, some err)
      | .ok files => (partitionFiles G fm files, none)

/-! ## `getUserSelections` -/

/-- Inner loop at lines 286-290. -/
def appendCategoryFiles (fm : FileManager) (category : Str) : FileManager :=
  fm.allFiles.foldl
    (fun fm file =>
      if hasPrefix file (extensionsSlash ++ category) then
        { fm with targetFiles := fm.targetFiles ++ [file] }
      else fm)
    fm

/-- Loop at lines 280-291 over the categories still to visit. -/
def categoryLoop (fs : FileSystem) (extDir : Str) :
    FileManager → List Str → FileManager × Option GoError
  | fm, [] => (fm, none)
  | fm, category :: rest =>
    match fs.mkdirAll (fs.joinPath extDir category) with
    | some err => (fm, some err)
    | none => categoryLoop fs extDir (appendCategoryFiles fm category) rest

/-- `getUserSelections` (lines 233-295): the state after the call and the
returned error. -/
def getUserSelections (fs : FileSystem) (fm : FileManager) : FileManager × Option GoError :=
  let nonJDKFiles := filterFiles fm.baseFiles (fun s => !hasPrefix s jdkMarker)
  let fm := { fm with targetFiles := fm.targetFiles ++ nonJDKFiles }
  let jdkFiles := filterFiles fm.baseFiles (fun s => hasPrefix s jdkMarker)
  let fm :=
    if jdkFiles.length > 0 then
      match sortStrings jdkFiles with
      | selectedJDK :: _ => { fm with targetFiles := fm.targetFiles ++ [selectedJDK] }
      | [] => fm
    else fm
  let nonCommonExt := filterFiles fm.extensionCategory (fun s => s != commonCategory)
  let fm :=
    if nonCommonExt.length > 0 then { fm with targetExtensionCategory := nonCommonExt }
    else fm
  if fm.targetExtensionCategory.length > 0 then
    let extDir := fs.joinPath fm.procDir extensionsName
    match fs.mkdirAll extDir with
    | some err => (fm, some err)
    | none =>
      let fm :=
        { fm with targetExtensionCategory := fm.targetExtensionCategory ++ [commonCategory] }
      let fm := { fm with targetExtensionCategory := uniqueStrings fm.targetExtensionCategory }
      categoryLoop fs extDir fm fm.targetExtensionCategory
  else (fm, none)

/-- The state after `fetchRemoteFiles` and then `getUserSelections` on a fresh
`FileManager` for the server `url` and the working directory `dir`, when the
list request answers 200 with the manifest `m`. -/
def selection (G : GoRuntime) (fs : FileSystem) (url dir : Str) (m : List Str) :
    FileManager × Option GoError :=
  getUserSelections fs
    (fetchRemoteFiles G (ListExchange.answering 200 (.ok (jsonStrings m))) (FileManager.fresh url dir)).1

/-! ## `downloadFiles` -/

/-- What `downloadFiles` prints for a target: the progress line (line 302),
the skip line of a failed step (lines 308, 314, 320, 327, 336) or the
completion line (line 340). -/
inductive Event where
  | downloading (i n : Nat) (file : Str)
  | skipped (file : Str) (err : GoError)
  | completed (file : Str)
  deriving DecidableEq, Repr

/-- The outside world of `downloadFiles`.  Every call is indexed by the
iteration it is made in, so that the same file may meet a different outcome
when it is listed twice. -/
structure DownloadWorld where
  /-- `filepath.Join(a, b)`. -/
  joinPath : Str → Str → Str
  /-- `filepath.Dir(path)`. -/
  dirOf : Str → Str
  /-- `os.MkdirAll(path, 0755)`. -/
  mkdirAll : Nat → Str → Option GoError
  /-- `http.NewRequest("GET", url, nil)`. -/
  newRequest : Nat → Str → Option GoError
  /-- `client.Do(req)`; the response itself is only copied. -/
  doRequest : Nat → Str → Option GoError
  /-- `os.Create(path)`. -/
  create : Nat → Str → Option GoError
  /-- `io.Copy(out, resp.Body)` into the file at `path`. -/
  copy : Nat → Str → Option GoError

/-- Body of the loop of `downloadFiles` (lines 302-340) at iteration `i` of
`n`: the lines it prints. -/
def downloadOne (W : DownloadWorld) (fm : FileManager) (i n : Nat) (file : Str) : List Event :=
  let localFile := W.joinPath fm.procDir file
  Event.downloading (i + 1) n file ::
    match W.mkdirAll i (W.dirOf localFile) with
    | some err => [Event.skipped file err]
    | none =>
      match W.newRequest i (fm.baseURL ++ "/getFile/".toList ++ file) with
      | some err => [Event.skipped file err]
      | none =>
        match W.doRequest i (fm.baseURL ++ "/getFile/".toList ++ file) with
        | some err => [Event.skipped file err]
        | none =>
          match W.create i localFile with
          | some err => [Event.skipped file err]
          | none =>
            match W.copy i localFile with
            | some err => [Event.skipped file err]
            | none => [Event.completed file]

/-- Loop of `downloadFiles` from iteration `i` on. -/
def downloadLoop (W : DownloadWorld) (fm : FileManager) (n : Nat) : Nat → List Str → List Event
  | _, [] => []
  | i, file :: rest => downloadOne W fm i n file ++ downloadLoop W fm n (i + 1) rest

/-- `downloadFiles` (lines 297-344): the printed lines and the returned error. -/
def downloadFiles (W : DownloadWorld) (fm : FileManager) : List Event × Option GoError :=
  (downloadLoop W fm fm.targetFiles.length 0 fm.targetFiles, none)

/-- The files announced by a progress line, in order. -/
def attempted : List Event → List Str
  | [] => []
  | Event.downloading _ _ file :: rest => file :: attempted rest
  | _ :: rest => attempted rest

/-- The files reported as downloaded, in order. -/
def downloaded : List Event → List Str
  | [] => []
  | Event.completed file :: rest => file :: downloaded rest
  | _ :: rest => downloaded rest

/-- The files reported as skipped, in order. -/
def skippedFiles : List Event → List Str
  | [] => []
  | Event.skipped file _ :: rest => file :: skippedFiles rest
  | _ :: rest => skippedFiles rest

/-- Every one of the five steps for `file` at iteration `i` succeeds. -/
def allStepsSucceed (W : DownloadWorld) (fm : FileManager) (i : Nat) (file : Str) : Bool :=
  (W.mkdirAll i (W.dirOf (W.joinPath fm.procDir file))).isNone &&
  (W.newRequest i (fm.baseURL ++ "/getFile/".toList ++ file)).isNone &&
  (W.doRequest i (fm.baseURL ++ "/getFile/".toList ++ file)).isNone &&
  (W.create i (W.joinPath fm.procDir file)).isNone &&
  (W.copy i (W.joinPath fm.procDir file)).isNone

/-- The targets from iteration `i` on whose every step succeeds. -/
def succeeding (W : DownloadWorld) (fm : FileManager) : Nat → List Str → List Str
  | _, [] => []
  | i, file :: rest =>
    if allStepsSucceed W fm i file then file :: succeeding W fm (i + 1) rest
    else succeeding W fm (i + 1) rest

/-- A world in which the steps named by `failAt` fail: `failAt i` is `0` for
no failure at iteration `i`, and `1` to `5` for a failure of the directory
creation, the request construction, the request, the file creation, the copy. -/
def DownloadWorld.failing (failAt : Nat → Nat) : DownloadWorld where
  joinPath := fun a b => a ++ '\\' :: b
  dirOf := fun p => p
  mkdirAll := fun i _ => if failAt i = 1 then some ⟨"mkdir".toList⟩ else none
  newRequest := fun i _ => if failAt i = 2 then some ⟨"request".toList⟩ else none
  doRequest := fun i _ => if failAt i = 3 then some ⟨"transport".toList⟩ else none
  create := fun i _ => if failAt i = 4 then some ⟨"create".toList⟩ else none
  copy := fun i _ => if failAt i = 5 then some ⟨"copy".toList⟩ else none

/-! ## The first stages of `run` -/

/-- Lines 102-115 of `run`: list, select, download, each stage returning its
error at once.  The result is the state, the lines printed by the download
stage, and the error that ended these stages (`none` when the archive stage
is reached). -/
def runStages (G : GoRuntime) (net : ListExchange) (fs : FileSystem) (W : DownloadWorld)
    (fm : FileManager) : FileManager × List Event × Option GoError :=
  match fetchRemoteFiles G net fm with
  | (fm, some err) => (fm, [], some err)
  | (fm, none) =>
    match getUserSelections fs fm with
    | (fm, some err) => (fm, [], some err)
    | (fm, none) =>
      match downloadFiles W fm with
      | (log, some err) => (fm, log, some err)
      | (log, none) => (fm, log, none)

/-! ## `registerPaths` -/

/-- Lines 514-529 of `registerPaths`: the new value of `Path` computed from
the current value and the directories to register. -/
def newPath (pathValue : Str) (regTargets : List Str) : Str :=
  let pathValues := split ';' pathValue
  let pathValues :=
    regTargets.foldl
      (fun pathValues target =>
        if !contains pathValues target then pathValues ++ [target] else pathValues)
      pathValues
  let filteredPaths :=
    pathValues.foldl (fun filteredPaths p =>
      if trimSpace p != [] then filteredPaths ++ [p] else filteredPaths) []
  join ";".toList filteredPaths ++ ";".toList

/-- The outside world of `registerPaths`. -/
structure RegistryWorld where
  /-- `getDirectoriesWithBin(fm.procDir)` at line 476. -/
  directoriesWithBin : List Str
  /-- The answer read at line 483. -/
  getUserInput : Except GoError Str
  /-- The `reg export` command of line 502. -/
  regExport : Option GoError
  /-- `getRegistryValue("HKCU\\Environment", "Path")` at line 509. -/
  getRegistryValue : Except GoError Str
  /-- The `setx Path <value>` command of line 531. -/
  setx : Str → Option GoError

/-- `registerPaths` (lines 475-538): the value handed to `setx`, if the
command was run, and the returned error.  The rotation of an older backup
file (lines 498-500) touches neither and is left out. -/
def registerPaths (G : GoRuntime) (W : RegistryWorld) (fm : FileManager) :
    Option Str × Option GoError :=
  let regTargets := difference W.directoriesWithBin fm.existsDirs
  if regTargets.length = 0 then (none, none)
  else
    match W.getUserInput with
    | .error err => (none, some err)
    | .ok proceed =>
      if !hasPrefix (G.toLower proceed) "y".toList && proceed != [] then (none, none)
      else
        match W.regExport with
        | some err => (none, some err)
        | none =>
          match W.getRegistryValue with
          | .error err => (none, some err)
          | .ok pathValue =>
            let newPath := newPath pathValue regTargets
            match W.setx newPath with
            | some err => (some newPath, some err)
            | none => (some newPath, none)

/-- A registry world in which the user agrees, every command succeeds, the
stored `Path` is `pathValue` and `dirs` are the directories with a `bin`. -/
def RegistryWorld.agreeing (pathValue : Str) (dirs : List Str) : RegistryWorld where
  directoriesWithBin := dirs
  getUserInput := .ok "y".toList
  regExport := none
  getRegistryValue := .ok pathValue
  setx := fun _ => none

/-! ## Vocabulary of the statements -/

/-- The second `/`-separated segment of a path, when there is one: `parts[1]`
under the guard `len(parts) > 1` of line 215. -/
def secondSegment (item : Str) : Option Str :=
  match split '/' item with
  | _ :: category :: _ => some category
  | _ => none

/-- The manifest entries that the inner loop at lines 286-290 selects for a category. -/
def categoryFiles (allFiles : List Str) (category : Str) : List Str :=
  allFiles.filter (fun file => hasPrefix file (extensionsSlash ++ category))

/-- The toolchain file chosen at lines 250-255: the first of the sorted
`microsoft-jdk` base files, if there is one. -/
def selectedJDK (baseFiles : List Str) : List Str :=
  match sortStrings (baseFiles.filter (fun s => hasPrefix s jdkMarker)) with
  | first :: _ => [first]
  | [] => []

/-- The base files chosen at lines 235-255. -/
def baseSelection (baseFiles : List Str) : List Str :=
  baseFiles.filter (fun s => !hasPrefix s jdkMarker) ++ selectedJDK baseFiles

/-- The state after `fetchRemoteFiles` on a fresh `FileManager` for the server
`url` and the working directory `dir`, when the list request answers 200 with
the manifest `m`. -/
def fetched (G : GoRuntime) (url dir : Str) (m : List Str) : FileManager :=
  (fetchRemoteFiles G (ListExchange.answering 200 (.ok (jsonStrings m))) (FileManager.fresh url dir)).1

/-- A JSON value that is a string or `null`. -/
def isStringOrNull : Json → Bool
  | .str _ => true
  | .null => true
  | _ => false

/-- The Go string that a JSON string or `null` is stored as. -/
def elementString : Json → Str
  | .str s => s
  | _ => []

/-- A JSON value that is a string. -/
def isString : Json → Bool
  | .str _ => true
  | _ => false

/-- A body that is a JSON array of strings. -/
def isStringArray : Except GoError Json → Bool
  | .ok (.arr elems) => elems.all isString
  | _ => false

/-- A body that is a JSON array of strings when `null` is let pass, both as
an element and in place of the array. -/
def isStringArrayOrNull : Except GoError Json → Bool
  | .ok .null => true
  | .ok (.arr elems) => elems.all isStringOrNull
  | _ => false

/-- The non-blank `;`-separated segments of a `Path` value, in their order. -/
def keptSegments (p : Str) : List Str :=
  (split ';' p).filter (fun s => trimSpace s != [])

/-- The directories of `d` that are no segment of the `Path` value `p`, each
once, in the order of their first occurrence in `d`. -/
def addedDirs (p : Str) (d : List Str) : List Str :=
  uniqueStrings (d.filter (fun x => !contains (split ';' p) x))

/-! ## Inputs of the scenarios -/

/-- The manifest of the end-to-end scenario of the specification. -/
def scenarioManifest : List Str :=
  ["a.txt".toList, "extensions/python/ext.vsix".toList, "extensions/common/base.vsix".toList,
    "microsoft-jdk-11.zip".toList]

/-- A manifest with two toolchain archives and one other base file. -/
def jdkManifest : List Str :=
  ["microsoft-jdk-21".toList, "microsoft-jdk-17".toList, "other.zip".toList]

/-- A manifest whose only extension category is `common`. -/
def commonOnlyManifest : List Str := ["extensions/common/base.vsix".toList]

/-- A manifest with the categories `py` and `python`, one entry each. -/
def nestedNameManifest : List Str :=
  ["extensions/py/a.vsix".toList, "extensions/python/b.vsix".toList]

/-- A `FileManager` about to download five targets. -/
def fiveTargets : FileManager :=
  { FileManager.fresh defaultURL cProjects with
    targetFiles := ["f1".toList, "f2".toList, "f3".toList, "f4".toList, "f5".toList] }

/-- The existing `Path` value of the registration scenario. -/
def scenarioPath : Str := "C:\\x;".toList

/-- The new directory of the registration scenario. -/
def gitBin : Str := "C:\\projects\\git\\bin".toList

/-! ## Facts about the utility functions and the string order -/

theorem filterFiles_foldl (p : Str → Bool) (files acc : List Str) :
    files.foldl (fun result file => if p file then result ++ [file] else result) acc
      = acc ++ files.filter p := by
  induction files generalizing acc with
  | nil => simp
  | cons f fs ih =>
    simp only [List.foldl_cons, ih, List.filter_cons]
    split <;> simp

theorem filterFiles_eq_filter (files : List Str) (p : Str → Bool) :
    filterFiles files p = files.filter p := by
  simp [filterFiles, filterFiles_foldl]

theorem contains_iff (l : List Str) (x : Str) : contains l x = true ↔ x ∈ l := by
  induction l with
  | nil => simp [contains]
  | cons a l ih =>
    simp only [contains, List.mem_cons]
    split
    · next h => simp [h]
    · next h => rw [ih]; constructor
                · intro h'; exact Or.inr h'
                · rintro (h' | h')
                  · exact absurd h'.symm h
                  · exact h'

theorem strLt_irrefl (a : Str) : strLt a a = false := by
  induction a with
  | nil => rfl
  | cons c cs ih => simp [strLt, ih]

theorem strLt_asymm : ∀ a b : Str, strLt a b = true → strLt b a = false
  | _, [], h => by simp [strLt] at h
  | [], _ :: _, _ => by simp [strLt]
  | a :: as, b :: bs, h => by
    simp only [strLt] at h ⊢
    rcases lt_trichotomy a b with hab | hab | hab
    · simp [hab, not_lt_of_lt hab]
    · subst hab; simpa using strLt_asymm as bs (by simpa using h)
    · simp [hab, not_lt_of_lt hab] at h

theorem strLt_total : ∀ a b : Str, strLt a b = false → strLt b a = false → a = b
  | [], [], _, _ => rfl
  | [], _ :: _, h, _ => by simp [strLt] at h
  | _ :: _, [], _, h => by simp [strLt] at h
  | a :: as, b :: bs, h1, h2 => by
    simp only [strLt] at h1 h2
    rcases lt_trichotomy a b with hab | hab | hab
    · simp [hab] at h1
    · subst hab
      simp at h1 h2
      rw [strLt_total as bs h1 h2]
    · simp [hab] at h2

theorem strLt_trans : ∀ a b c : Str, strLt a b = true → strLt b c = true → strLt a c = true
  | _, [], _, h, _ => by simp [strLt] at h
  | _, _ :: _, [], _, h => by simp [strLt] at h
  | [], _ :: _, _ :: _, _, _ => by simp [strLt]
  | a :: as, b :: bs, c :: cs, h1, h2 => by
    simp only [strLt] at h1 h2 ⊢
    rcases lt_trichotomy a b with hab | hab | hab
    · rcases lt_trichotomy b c with hbc | hbc | hbc
      · simp [lt_trans hab hbc]
      · subst hbc; simp [hab]
      · simp [hbc, not_lt_of_lt hbc] at h2
    · subst hab
      rcases lt_trichotomy a c with hbc | hbc | hbc
      · simp [hbc]
      · subst hbc
        simp at h1 h2 ⊢
        exact strLt_trans as bs cs h1 h2
      · simp [hbc, not_lt_of_lt hbc] at h2
    · simp [hab, not_lt_of_lt hab] at h1

theorem strLe_total (a b : Str) : strLe a b = true ∨ strLe b a = true := by
  simp only [strLe, Bool.not_eq_true']
  cases h : strLt b a
  · exact Or.inl rfl
  · exact Or.inr (strLt_asymm b a h)

theorem strLe_antisymm (a b : Str) (h1 : strLe a b = true) (h2 : strLe b a = true) : a = b := by
  simp only [strLe, Bool.not_eq_true'] at h1 h2
  exact strLt_total a b h2 h1

theorem strLe_trans (a b c : Str) (h1 : strLe a b = true) (h2 : strLe b c = true) :
    strLe a c = true := by
  simp only [strLe, Bool.not_eq_true'] at h1 h2 ⊢
  cases hca : strLt c a
  · rfl
  · -- c < a, ¬ b < a, ¬ c < b
    cases hcb : strLt a b
    · have := strLt_total a b hcb h1
      subst this
      rw [hca] at h2; exact h2
    · have := strLt_trans c a b hca hcb
      rw [this] at h2; exact h2

theorem sortStrings_perm (x : List Str) : (sortStrings x).Perm x :=
  List.perm_insertionSort _ x

theorem sortStrings_sorted (x : List Str) :
    (sortStrings x).Sorted (fun a b => strLe a b = true) := by
  haveI : IsTotal Str (fun a b => strLe a b = true) := ⟨strLe_total⟩
  haveI : IsTrans Str (fun a b => strLe a b = true) := ⟨strLe_trans⟩
  exact List.sorted_insertionSort _ x

theorem mem_sortStrings (x : List Str) (a : Str) : a ∈ sortStrings x ↔ a ∈ x :=
  (sortStrings_perm x).mem_iff

theorem sortStrings_eq_of_perm (x y : List Str) (h : x.Perm y) :
    sortStrings x = sortStrings y := by
  haveI : IsAntisymm Str (fun a b => strLe a b = true) := ⟨strLe_antisymm⟩
  exact List.eq_of_perm_of_sorted
    (((sortStrings_perm x).trans h).trans (sortStrings_perm y).symm)
    (sortStrings_sorted x) (sortStrings_sorted y)

theorem sortStrings_head_le (x : List Str) (a : Str) (rest : List Str)
    (h : sortStrings x = a :: rest) : a ∈ x ∧ ∀ b ∈ x, strLe a b = true := by
  have hs := sortStrings_sorted x
  rw [h] at hs
  have hmem : ∀ b, b ∈ x ↔ b ∈ a :: rest := fun b => by rw [← h, mem_sortStrings]
  refine ⟨(hmem a).2 (List.mem_cons_self _ _), fun b hb => ?_⟩
  rcases List.mem_cons.1 ((hmem b).1 hb) with hb' | hb'
  · subst hb'; simp [strLe, strLt_irrefl]
  · exact List.rel_of_sorted_cons hs b hb'


theorem uniqueStep_foldl (l : List Str) :
    ∀ k r : List Str, (∀ x, x ∈ k ↔ x ∈ r) → r.Nodup →
      (∀ x, x ∈ (l.foldl uniqueStep (k, r)).2 ↔ x ∈ r ∨ x ∈ l) ∧
      (l.foldl uniqueStep (k, r)).2.Nodup ∧
      ∃ t, (l.foldl uniqueStep (k, r)).2 = r ++ t ∧ t.Sublist l := by
  induction l with
  | nil => intro k r _ hr; exact ⟨by simp, hr, [], by simp, List.Sublist.refl _⟩
  | cons a l ih =>
    intro k r hk hr
    simp only [List.foldl_cons]
    by_cases ha : a ∈ k
    · have hstep : uniqueStep (k, r) a = (k, r) := by simp [uniqueStep, ha]
      rw [hstep]
      obtain ⟨h1, h2, t, h3, h4⟩ := ih k r hk hr
      refine ⟨fun x => ?_, h2, t, h3, h4.cons a⟩
      rw [h1 x, List.mem_cons]
      constructor
      · rintro (h | h)
        · exact Or.inl h
        · exact Or.inr (Or.inr h)
      · rintro (h | h | h)
        · exact Or.inl h
        · subst h; exact Or.inl ((hk x).1 ha)
        · exact Or.inr h
    · have hstep : uniqueStep (k, r) a = (a :: k, r ++ [a]) := by simp [uniqueStep, ha]
      rw [hstep]
      have hk' : ∀ x, x ∈ a :: k ↔ x ∈ r ++ [a] := fun x => by
        simp only [List.mem_cons, List.mem_append, List.mem_singleton, hk x, List.not_mem_nil,
          or_false]
        exact Or.comm
      have hr' : (r ++ [a]).Nodup := by
        rw [List.nodup_append]
        refine ⟨hr, List.nodup_singleton a, ?_⟩
        intro x hx hx'
        rw [List.mem_singleton] at hx'
        subst hx'
        exact ha ((hk x).2 hx)
      obtain ⟨h1, h2, t, h3, h4⟩ := ih (a :: k) (r ++ [a]) hk' hr'
      refine ⟨fun x => ?_, h2, a :: t, by rw [h3]; simp, h4.cons₂ a⟩
      rw [h1 x]
      simp only [List.mem_cons, List.mem_append, List.mem_singleton]
      tauto

theorem mem_uniqueStrings (l : List Str) (x : Str) : x ∈ uniqueStrings l ↔ x ∈ l := by
  have h := (uniqueStep_foldl l [] [] (fun _ => Iff.rfl) List.nodup_nil).1 x
  simpa [uniqueStrings] using h

theorem nodup_uniqueStrings (l : List Str) : (uniqueStrings l).Nodup :=
  (uniqueStep_foldl l [] [] (fun _ => Iff.rfl) List.nodup_nil).2.1

theorem sublist_uniqueStrings (l : List Str) : (uniqueStrings l).Sublist l := by
  obtain ⟨t, h1, h2⟩ := (uniqueStep_foldl l [] [] (fun _ => Iff.rfl) List.nodup_nil).2.2
  simp only [List.nil_append] at h1
  rw [uniqueStrings, h1]
  exact h2

theorem uniqueStrings_of_nodup (l : List Str) (h : l.Nodup) : uniqueStrings l = l := by
  have hs := sublist_uniqueStrings l
  have hp : (uniqueStrings l).Perm l :=
    (List.perm_ext_iff_of_nodup (nodup_uniqueStrings l) h).2 (mem_uniqueStrings l)
  exact hs.eq_of_length (hp.length_eq)

theorem count_uniqueStrings (l : List Str) (x : Str) (h : x ∈ l) :
    (uniqueStrings l).count x = 1 := by
  have h1 := List.count_eq_one_of_mem (nodup_uniqueStrings l) ((mem_uniqueStrings l x).2 h)
  rw [← h1]
  congr 1
  exact lawful_beq_subsingleton _ _

theorem mapSet_foldl (keys : List Str) :
    ∀ m : List Str, m.Nodup →
      (keys.foldl mapSet m).Nodup ∧ ∀ x, x ∈ keys.foldl mapSet m ↔ x ∈ m ∨ x ∈ keys := by
  induction keys with
  | nil => intro m hm; exact ⟨hm, by simp⟩
  | cons a keys ih =>
    intro m hm
    simp only [List.foldl_cons]
    by_cases ha : a ∈ m
    · have hstep : mapSet m a = m := by simp [mapSet, ha]
      rw [hstep]
      refine ⟨(ih m hm).1, fun x => ?_⟩
      rw [(ih m hm).2 x, List.mem_cons]
      constructor
      · rintro (h | h)
        · exact Or.inl h
        · exact Or.inr (Or.inr h)
      · rintro (h | h | h)
        · exact Or.inl h
        · subst h; exact Or.inl ha
        · exact Or.inr h
    · have hstep : mapSet m a = m ++ [a] := by simp [mapSet, ha]
      rw [hstep]
      have hm' : (m ++ [a]).Nodup := by
        rw [List.nodup_append]
        refine ⟨hm, List.nodup_singleton a, ?_⟩
        intro x hx hx'
        rw [List.mem_singleton] at hx'
        subst hx'
        exact ha hx
      refine ⟨(ih _ hm').1, fun x => ?_⟩
      rw [(ih _ hm').2 x]
      simp only [List.mem_cons, List.mem_append, List.mem_singleton]
      tauto

/-! ## Facts about `fetchRemoteFiles` -/

theorem partitionStep_foldl (files : List Str) :
    ∀ (fm : FileManager) (keys : List Str),
      files.foldl partitionStep (fm, keys) =
        ({ fm with
            allFiles := fm.allFiles ++ files
            baseFiles := fm.baseFiles ++ files.filter (fun i => !hasPrefix i extensionsName) },
          ((files.filter (fun i => hasPrefix i extensionsName)).filterMap
            secondSegment).foldl mapSet keys) := by
  induction files with
  | nil => intro fm keys; simp
  | cons a files ih =>
    intro fm keys
    rw [List.foldl_cons]
    cases hp : hasPrefix a extensionsName
    · have hstep : partitionStep (fm, keys) a =
          ({ fm with allFiles := fm.allFiles ++ [a], baseFiles := fm.baseFiles ++ [a] }, keys) := by
        simp [partitionStep, hp]
      rw [hstep, ih]
      simp [hp, List.filter_cons]
    · cases hs : secondSegment a with
      | none =>
        have hstep : partitionStep (fm, keys) a =
            ({ fm with allFiles := fm.allFiles ++ [a] }, keys) := by
          simp only [secondSegment] at hs
          rcases hsplit : split '/' a with _ | ⟨x, _ | ⟨c, t⟩⟩ <;>
            simp [hsplit] at hs <;> simp [partitionStep, hp, hsplit]
        rw [hstep, ih]
        simp [hp, hs, List.filter_cons]
      | some c =>
        have hstep : partitionStep (fm, keys) a =
            ({ fm with allFiles := fm.allFiles ++ [a] }, mapSet keys c) := by
          simp only [secondSegment] at hs
          rcases hsplit : split '/' a with _ | ⟨x, _ | ⟨c', t⟩⟩ <;>
            simp [hsplit] at hs
          subst hs
          simp [partitionStep, hp, hsplit]
        rw [hstep, ih]
        simp [hp, hs, List.filter_cons]

theorem decodeElements_map_str (m : List Str) :
    decodeElements (m.map Json.str) = .ok m := by
  induction m with
  | nil => rfl
  | cons a m ih => simp [decodeElements, decodeElement, ih]

theorem decodeStrings_jsonStrings (m : List Str) : decodeStrings (.ok (jsonStrings m)) = .ok m := by
  simp [decodeStrings, jsonStrings, decodeElements_map_str]

theorem decodeElements_error_iff (elems : List Json) :
    (∃ err, decodeElements elems = .error err) ↔ elems.all isStringOrNull = false := by
  induction elems with
  | nil => simp [decodeElements]
  | cons e rest ih =>
    cases e <;> simp [decodeElements, decodeElement, isStringOrNull] <;>
      (cases h : decodeElements rest <;> simp [h] at ih ⊢ <;> simpa using ih)

theorem decodeElements_ok (elems : List Json) (h : elems.all isStringOrNull = true) :
    decodeElements elems = .ok (elems.map elementString) := by
  induction elems with
  | nil => rfl
  | cons e rest ih =>
    rw [List.all_cons, Bool.and_eq_true] at h
    obtain ⟨h1, h2⟩ := h
    cases e <;> first
      | exact Bool.noConfusion h1
      | simp [decodeElements, decodeElement, elementString, ih h2]

theorem decodeStrings_error_iff (body : Except GoError Json) :
    (∃ err, decodeStrings body = .error err) ↔ isStringArrayOrNull body = false := by
  rcases body with err | j
  · simp [decodeStrings, isStringArrayOrNull]
  · cases j <;> simp [decodeStrings, isStringArrayOrNull]
    simpa using decodeElements_error_iff _

theorem fetched_eq (G : GoRuntime) (url dir : Str) (m : List Str) :
    fetched G url dir m =
      { FileManager.fresh url dir with
        allFiles := m
        baseFiles :=
          G.sortSlice (fun a b => strLt (G.toLower a) (G.toLower b))
            (m.filter (fun i => !hasPrefix i extensionsName))
        extensionCategory :=
          sortStrings (G.rangeKeys
            (((m.filter (fun i => hasPrefix i extensionsName)).filterMap
              secondSegment).foldl mapSet [])) } := by
  simp [fetched, fetchRemoteFiles, ListExchange.answering, decodeStrings_jsonStrings,
    partitionFiles, partitionStep_foldl,
    FileManager.fresh]

theorem fetched_allFiles (G : GoRuntime) (url dir : Str) (m : List Str) :
    (fetched G url dir m).allFiles = m := by
  rw [fetched_eq]

theorem fetched_targetFiles (G : GoRuntime) (url dir : Str) (m : List Str) :
    (fetched G url dir m).targetFiles = [] := by
  rw [fetched_eq]; rfl

theorem fetched_targetExtensionCategory (G : GoRuntime) (url dir : Str) (m : List Str) :
    (fetched G url dir m).targetExtensionCategory = [] := by
  rw [fetched_eq]; rfl

theorem fetched_baseFiles_perm (G : GoRuntime) (url dir : Str) (m : List Str) :
    (fetched G url dir m).baseFiles.Perm (m.filter (fun i => !hasPrefix i extensionsName)) := by
  rw [fetched_eq]
  exact G.sortSlice_perm _ _

theorem mem_fetched_baseFiles (G : GoRuntime) (url dir : Str) (m : List Str) (x : Str) :
    x ∈ (fetched G url dir m).baseFiles ↔ x ∈ m ∧ hasPrefix x extensionsName = false := by
  rw [(fetched_baseFiles_perm G url dir m).mem_iff]
  simp

theorem fetched_extensionCategory_nodup (G : GoRuntime) (url dir : Str) (m : List Str) :
    (fetched G url dir m).extensionCategory.Nodup := by
  rw [fetched_eq]
  exact ((sortStrings_perm _).trans (G.rangeKeys_perm _)).nodup_iff.2
    (mapSet_foldl _ [] List.nodup_nil).1

theorem mem_fetched_extensionCategory (G : GoRuntime) (url dir : Str) (m : List Str) (c : Str) :
    c ∈ (fetched G url dir m).extensionCategory ↔
      ∃ item ∈ m, hasPrefix item extensionsName = true ∧ secondSegment item = some c := by
  rw [fetched_eq]
  show c ∈ sortStrings _ ↔ _
  rw [((sortStrings_perm _).trans (G.rangeKeys_perm _)).mem_iff,
    (mapSet_foldl _ [] List.nodup_nil).2 c]
  simp only [List.not_mem_nil, false_or, List.mem_filterMap, List.mem_filter]
  constructor
  · rintro ⟨item, ⟨h1, h2⟩, h3⟩; exact ⟨item, h1, h2, h3⟩
  · rintro ⟨item, h1, h2, h3⟩; exact ⟨item, ⟨h1, h2⟩, h3⟩

theorem fetched_extensionCategory_sorted (G : GoRuntime) (url dir : Str) (m : List Str) :
    (fetched G url dir m).extensionCategory.Sorted (fun a b => strLe a b = true) := by
  rw [fetched_eq]
  exact sortStrings_sorted _

/-! ## Facts about `getUserSelections` -/

theorem appendCategoryFiles_foldl (category : Str) (files : List Str) :
    ∀ fm : FileManager,
      files.foldl
        (fun fm file =>
          if hasPrefix file (extensionsSlash ++ category) then
            { fm with targetFiles := fm.targetFiles ++ [file] }
          else fm)
        fm = { fm with targetFiles := fm.targetFiles ++ categoryFiles files category } := by
  induction files with
  | nil => intro fm; simp [categoryFiles]
  | cons a files ih =>
    intro fm
    rw [List.foldl_cons, ih]
    cases h : hasPrefix a (extensionsSlash ++ category) <;>
      simp [categoryFiles, List.filter_cons, h]

theorem appendCategoryFiles_eq (fm : FileManager) (category : Str) :
    appendCategoryFiles fm category =
      { fm with targetFiles := fm.targetFiles ++ categoryFiles fm.allFiles category } := by
  rw [appendCategoryFiles, appendCategoryFiles_foldl]

theorem categoryLoop_spec (fs : FileSystem) (extDir : Str) (cats : List Str) :
    ∀ fm : FileManager,
      ∃ visited, visited <+: cats ∧
        (categoryLoop fs extDir fm cats).1 =
          { fm with targetFiles :=
              fm.targetFiles ++ visited.flatMap (categoryFiles fm.allFiles) } ∧
        ((categoryLoop fs extDir fm cats).2 = none → visited = cats) := by
  induction cats with
  | nil => intro fm; exact ⟨[], List.prefix_refl _, by simp [categoryLoop], fun _ => rfl⟩
  | cons c cats ih =>
    intro fm
    cases hmk : fs.mkdirAll (fs.joinPath extDir c) with
    | some err =>
      refine ⟨[], List.nil_prefix, ?_, ?_⟩
      · simp [categoryLoop, hmk]
      · simp [categoryLoop, hmk]
    | none =>
      obtain ⟨v, hv1, hv2, hv3⟩ := ih (appendCategoryFiles fm c)
      refine ⟨c :: v, ?_, ?_, ?_⟩
      · exact (List.prefix_cons_inj c).2 hv1
      · simp only [categoryLoop, hmk]
        rw [hv2, appendCategoryFiles_eq]
        simp [List.flatMap_cons]
      · simp only [categoryLoop, hmk]
        intro h
        rw [hv3 h]

theorem categoryLoop_ok (fs : FileSystem) (hfs : ∀ p, fs.mkdirAll p = none) (extDir : Str)
    (cats : List Str) :
    ∀ fm : FileManager,
      categoryLoop fs extDir fm cats =
        ({ fm with targetFiles :=
            fm.targetFiles ++ cats.flatMap (categoryFiles fm.allFiles) }, none) := by
  induction cats with
  | nil => intro fm; simp [categoryLoop]
  | cons c cats ih =>
    intro fm
    simp only [categoryLoop, hfs]
    rw [ih, appendCategoryFiles_eq]
    simp [List.flatMap_cons]

theorem getUserSelections_eq (fs : FileSystem) (fm : FileManager)
    (h : fm.targetExtensionCategory = []) :
    getUserSelections fs fm =
      if fm.extensionCategory.filter (fun s => s != commonCategory) = [] then
        ({ fm with targetFiles := fm.targetFiles ++ baseSelection fm.baseFiles }, none)
      else
        match fs.mkdirAll (fs.joinPath fm.procDir extensionsName) with
        | some err =>
          ({ fm with
              targetFiles := fm.targetFiles ++ baseSelection fm.baseFiles
              targetExtensionCategory :=
                fm.extensionCategory.filter (fun s => s != commonCategory) }, some err)
        | none =>
          categoryLoop fs (fs.joinPath fm.procDir extensionsName)
            { fm with
              targetFiles := fm.targetFiles ++ baseSelection fm.baseFiles
              targetExtensionCategory :=
                uniqueStrings
                  (fm.extensionCategory.filter (fun s => s != commonCategory) ++
                    [commonCategory]) }
            (uniqueStrings
              (fm.extensionCategory.filter (fun s => s != commonCategory) ++
                [commonCategory])) := by
  have hlen : ∀ l : List Str, sortStrings l = [] → l = [] := fun l h0 => by
    have := (sortStrings_perm l).length_eq
    rw [h0] at this
    exact List.length_eq_zero.1 this.symm
  rcases hs : sortStrings (fm.baseFiles.filter (fun s => hasPrefix s jdkMarker)) with _ | ⟨s1, ss⟩
  · have hj := hlen _ hs
    rcases hn : fm.extensionCategory.filter (fun s => s != commonCategory) with _ | ⟨n, ns⟩
    · simp [getUserSelections, filterFiles_eq_filter, baseSelection, selectedJDK, hj, hs, hn, h,
        sortStrings]
    · cases hmk : fs.mkdirAll (fs.joinPath fm.procDir extensionsName) <;>
        simp [getUserSelections, filterFiles_eq_filter, baseSelection, selectedJDK, hj, hs, hn,
          hmk, h, sortStrings]
  · have hj : 0 < (fm.baseFiles.filter (fun s => hasPrefix s jdkMarker)).length := by
      rw [← (sortStrings_perm _).length_eq, hs]
      simp
    rcases hn : fm.extensionCategory.filter (fun s => s != commonCategory) with _ | ⟨n, ns⟩
    · simp [getUserSelections, filterFiles_eq_filter, baseSelection, selectedJDK, hj, hs, hn, h]
    · cases hmk : fs.mkdirAll (fs.joinPath fm.procDir extensionsName) <;>
        simp [getUserSelections, filterFiles_eq_filter, baseSelection, selectedJDK, hj, hs, hn,
          hmk, h]

theorem selection_eq (G : GoRuntime) (fs : FileSystem) (url dir : Str)
    (m : List Str) :
    selection G fs url dir m = getUserSelections fs (fetched G url dir m) := rfl

theorem split_ne_nil (sep : Char) (s : Str) : split sep s ≠ [] := by
  induction s with
  | nil => simp [split]
  | cons c cs ih =>
    simp only [split]
    split
    · simp
    · rcases h : split sep cs with _ | ⟨x, t⟩
      · exact absurd h ih
      · simp

theorem split_append_sep (sep : Char) (a t : Str) (h : sep ∉ a) :
    split sep (a ++ sep :: t) = a :: split sep t := by
  induction a with
  | nil => simp [split]
  | cons c cs ih =>
    have hc : c ≠ sep := fun e => h (by simp [e])
    have hcs : sep ∉ cs := fun e => h (List.mem_cons_of_mem _ e)
    simp [split, hc, ih hcs]

theorem hasPrefix_iff (s pre : Str) : hasPrefix s pre = true ↔ pre <+: s := by
  simp [hasPrefix]

theorem hasPrefix_append_left (s a b : Str) (h : hasPrefix s (a ++ b) = true) :
    hasPrefix s a = true := by
  rw [hasPrefix_iff] at h ⊢
  exact (List.prefix_append a b).trans h

theorem hasPrefix_extensionsSlash (f : Str) (h : hasPrefix f extensionsSlash = true) :
    hasPrefix f extensionsName = true ∧ hasPrefix f jdkMarker = false ∧
      ∃ c, secondSegment f = some c := by
  rw [hasPrefix_iff] at h
  obtain ⟨t, rfl⟩ := h
  refine ⟨?_, ?_, ?_⟩
  · rw [hasPrefix_iff]
    exact ⟨'/' :: t, by simp [extensionsSlash, extensionsName]⟩
  · simp [hasPrefix, extensionsSlash, jdkMarker, List.isPrefixOf]
  · have hsplit : split '/' (extensionsSlash ++ t) = extensionsName :: split '/' t := by
      have := split_append_sep '/' extensionsName t (by decide)
      simpa [extensionsSlash, extensionsName] using this
    rcases hs : split '/' t with _ | ⟨c, r⟩
    · exact absurd hs (split_ne_nil _ _)
    · exact ⟨c, by simp [secondSegment, hsplit, hs]⟩

theorem mem_selectedJDK (baseFiles : List Str) (j : Str) (h : j ∈ selectedJDK baseFiles) :
    selectedJDK baseFiles = [j] ∧ j ∈ baseFiles ∧ hasPrefix j jdkMarker = true ∧
      ∀ b ∈ baseFiles, hasPrefix b jdkMarker = true → strLe j b = true := by
  unfold selectedJDK at h ⊢
  rcases hs : sortStrings (baseFiles.filter (fun s => hasPrefix s jdkMarker)) with _ | ⟨s1, ss⟩
  · simp [hs] at h
  · simp only [hs, List.mem_singleton] at h ⊢
    subst h
    obtain ⟨h1, h2⟩ := sortStrings_head_le _ _ _ hs
    rw [List.mem_filter] at h1
    refine ⟨rfl, h1.1, h1.2, fun b hb hp => h2 b ?_⟩
    rw [List.mem_filter]
    exact ⟨hb, hp⟩

theorem selectedJDK_ne_nil (baseFiles : List Str) (b : Str) (hb : b ∈ baseFiles)
    (hp : hasPrefix b jdkMarker = true) : selectedJDK baseFiles ≠ [] := by
  unfold selectedJDK
  rcases hs : sortStrings (baseFiles.filter (fun s => hasPrefix s jdkMarker)) with _ | ⟨s1, ss⟩
  · have : b ∈ sortStrings (baseFiles.filter (fun s => hasPrefix s jdkMarker)) := by
      rw [mem_sortStrings, List.mem_filter]; exact ⟨hb, hp⟩
    rw [hs] at this
    simp at this
  · simp

/-- The shape of the selection whatever the file system does: the base
selection, then the files of the categories visited before the first failed
directory creation, every visited category being a selected one. -/
theorem selection_shape (G : GoRuntime) (fs : FileSystem) (url dir : Str)
    (m : List Str) :
    ∃ visited : List Str,
      (selection G fs url dir m).1.targetFiles =
          baseSelection (fetched G url dir m).baseFiles ++ visited.flatMap (categoryFiles m) ∧
        (visited ≠ [] →
          (selection G fs url dir m).1.targetExtensionCategory =
            uniqueStrings
              ((fetched G url dir m).extensionCategory.filter (fun s => s != commonCategory) ++
                [commonCategory])) ∧
        ∀ c ∈ visited, c ∈ (selection G fs url dir m).1.targetExtensionCategory := by
  rw [selection_eq, getUserSelections_eq fs _ (fetched_targetExtensionCategory G url dir m)]
  split
  · exact ⟨[], by simp [fetched_targetFiles], by simp, by simp⟩
  · split
    · exact ⟨[], by simp [fetched_targetFiles], by simp, by simp⟩
    · obtain ⟨v, hv1, hv2, _⟩ := categoryLoop_spec fs
        (fs.joinPath (fetched G url dir m).procDir extensionsName)
        (uniqueStrings
          ((fetched G url dir m).extensionCategory.filter (fun s => s != commonCategory) ++
            [commonCategory]))
        { fetched G url dir m with
          targetFiles :=
            (fetched G url dir m).targetFiles ++ baseSelection (fetched G url dir m).baseFiles
          targetExtensionCategory :=
            uniqueStrings
              ((fetched G url dir m).extensionCategory.filter (fun s => s != commonCategory) ++
                [commonCategory]) }
      refine ⟨v, ?_, ?_, ?_⟩
      · rw [hv2]; simp [fetched_targetFiles, fetched_allFiles]
      · intro _; rw [hv2]
      · intro c hc; rw [hv2]; exact hv1.subset hc

theorem selection_ok (G : GoRuntime) (fs : FileSystem) (url dir : Str)
    (m : List Str)
    (hfs : ∀ p, fs.mkdirAll p = none)
    (hc : ∃ c ∈ (fetched G url dir m).extensionCategory, c ≠ commonCategory) :
    selection G fs url dir m =
      ({ fetched G url dir m with
          targetFiles :=
            baseSelection (fetched G url dir m).baseFiles ++
              ((fetched G url dir m).extensionCategory.filter (fun s => s != commonCategory) ++
                [commonCategory]).flatMap (categoryFiles m)
          targetExtensionCategory :=
            (fetched G url dir m).extensionCategory.filter (fun s => s != commonCategory) ++
              [commonCategory] }, none) := by
  have hne :
      (fetched G url dir m).extensionCategory.filter (fun s => s != commonCategory) ≠ [] := by
    obtain ⟨c, hc1, hc2⟩ := hc
    intro h0
    have : c ∈ (fetched G url dir m).extensionCategory.filter (fun s => s != commonCategory) := by
      rw [List.mem_filter]; exact ⟨hc1, by simpa using hc2⟩
    rw [h0] at this
    simp at this
  have hnd : ((fetched G url dir m).extensionCategory.filter (fun s => s != commonCategory) ++
      [commonCategory]).Nodup := by
    rw [List.nodup_append]
    refine ⟨(fetched_extensionCategory_nodup G url dir m).filter _, List.nodup_singleton _, ?_⟩
    intro x hx hx'
    rw [List.mem_singleton] at hx'
    rw [List.mem_filter] at hx
    simp [hx'] at hx
  rw [selection_eq, getUserSelections_eq fs _ (fetched_targetExtensionCategory G url dir m),
    if_neg hne,
    hfs, uniqueStrings_of_nodup _ hnd, categoryLoop_ok fs hfs]
  simp [fetched_targetFiles, fetched_allFiles]

/-! ## The claims -/

/-- C1, as the code has it: when every directory can be created, the selected
category list holds `"common"` exactly once if the manifest has an extension
category other than `"common"`; if it has none, the list is empty (so holds
no `"common"`) and the selected files are the base selection alone, none of
them an entry starting with `extensions`. -/
theorem common_once_when_other_category (G : GoRuntime) (fs : FileSystem) (url dir : Str)
    (m : List Str)
    (hfs : ∀ p, fs.mkdirAll p = none) :
    (selection G fs url dir m).2 = none ∧
      ((∃ c ∈ (fetched G url dir m).extensionCategory, c ≠ commonCategory) →
        (selection G fs url dir m).1.targetExtensionCategory.count commonCategory = 1) ∧
      ((∀ c ∈ (fetched G url dir m).extensionCategory, c = commonCategory) →
        (selection G fs url dir m).1.targetExtensionCategory = [] ∧
          (selection G fs url dir m).1.targetFiles =
            baseSelection (fetched G url dir m).baseFiles ∧
          ∀ f ∈ (selection G fs url dir m).1.targetFiles,
            hasPrefix f extensionsName = false) := by
  by_cases hc : ∃ c ∈ (fetched G url dir m).extensionCategory, c ≠ commonCategory
  · rw [selection_ok G fs url dir m hfs hc]
    refine ⟨rfl, fun _ => ?_, fun hall => ?_⟩
    · have hnot : commonCategory ∉
          (fetched G url dir m).extensionCategory.filter (fun s => s != commonCategory) := by
        rw [List.mem_filter]; simp
      simp [List.count_append, List.count_eq_zero_of_not_mem hnot]
    · obtain ⟨c, hc1, hc2⟩ := hc
      exact absurd (hall c hc1) hc2
  · have hall : ∀ c ∈ (fetched G url dir m).extensionCategory, c = commonCategory := by
      intro c hc1
      by_contra hc2
      exact hc ⟨c, hc1, hc2⟩
    have hnil :
        (fetched G url dir m).extensionCategory.filter (fun s => s != commonCategory) = [] := by
      rw [List.filter_eq_nil_iff]
      intro c hc1
      simp [hall c hc1]
    rw [selection_eq, getUserSelections_eq fs _ (fetched_targetExtensionCategory G url dir m),
      if_pos hnil]
    refine ⟨rfl, fun h => absurd h hc, fun _ => ⟨?_, ?_, ?_⟩⟩
    · exact fetched_targetExtensionCategory G url dir m
    · simp [fetched_targetFiles]
    · intro f hf
      simp only [fetched_targetFiles, List.nil_append] at hf
      rw [baseSelection, List.mem_append] at hf
      rcases hf with hf | hf
      · rw [List.mem_filter, mem_fetched_baseFiles] at hf
        exact hf.1.2
      · exact ((mem_fetched_baseFiles G url dir m f).1 (mem_selectedJDK _ f hf).2.1).2

/-- C1, witness: the manifest of the end-to-end scenario selects `"common"` once. -/
theorem common_once_when_other_category_witness :
    (∀ p, okFileSystem.mkdirAll p = none) ∧
      (selection simpleRuntime okFileSystem defaultURL cProjects
        scenarioManifest).1.targetExtensionCategory.count commonCategory = 1 :=
  ⟨fun _ => rfl,
    (common_once_when_other_category simpleRuntime okFileSystem defaultURL cProjects _
      (fun _ => rfl)).2.1
      ⟨"python".toList, by decide, by decide⟩⟩

/-- C1, counterexample: with no extension entry, and with `"common"` as the
only extension category, directory creation succeeds and the selected category
list holds no `"common"` at all. -/
theorem common_absent_counterexample :
    (∀ p, okFileSystem.mkdirAll p = none) ∧
      (selection simpleRuntime okFileSystem defaultURL cProjects ["a.txt".toList]).2 = none ∧
      (selection simpleRuntime okFileSystem defaultURL cProjects
        ["a.txt".toList]).1.targetExtensionCategory.count commonCategory = 0 ∧
      (selection simpleRuntime okFileSystem defaultURL cProjects
        commonOnlyManifest).2 = none ∧
      (fetched simpleRuntime defaultURL cProjects commonOnlyManifest).extensionCategory =
        [commonCategory] ∧
      (selection simpleRuntime okFileSystem defaultURL cProjects
        commonOnlyManifest).1.targetExtensionCategory.count
          commonCategory = 0 := by
  refine ⟨fun _ => rfl, ?_, ?_, ?_, ?_, ?_⟩ <;> decide

/-- C2, the code at a failing input: the two entries of the manifest are
distinct, the categories are `py` and `python`, and the entry of `python` is
selected twice, once for each category, since `"extensions/py"` is a prefix of
its path. -/
theorem targetFiles_duplicate_on_category_prefix :
    nestedNameManifest.Nodup ∧
      (fetched simpleRuntime defaultURL cProjects
        nestedNameManifest).extensionCategory =
        ["py".toList, "python".toList] ∧
      (selection simpleRuntime okFileSystem defaultURL cProjects
        nestedNameManifest).2 = none ∧
      (selection simpleRuntime okFileSystem defaultURL cProjects
        nestedNameManifest).1.targetFiles =
        ["extensions/py/a.vsix".toList, "extensions/python/b.vsix".toList,
          "extensions/python/b.vsix".toList] ∧
      ¬ (selection simpleRuntime okFileSystem defaultURL cProjects
        nestedNameManifest).1.targetFiles.Nodup := by
  refine ⟨?_, ?_, ?_, ?_, ?_⟩ <;> decide

/-- C3: whatever the file system does, every base file without the
`microsoft-jdk` marker is selected; when some base file has the marker, the
selected entries with the marker are exactly one, a base file that is least
among the marked base files in the order of Go string comparison; when none
has it, no selected entry has it. -/
theorem jdk_selection (G : GoRuntime) (fs : FileSystem) (url dir : Str)
    (m : List Str) :
    (∀ b ∈ (fetched G url dir m).baseFiles, hasPrefix b jdkMarker = false →
        b ∈ (selection G fs url dir m).1.targetFiles) ∧
      ((∃ b ∈ (fetched G url dir m).baseFiles, hasPrefix b jdkMarker = true) →
        ∃ j,
          (selection G fs url dir m).1.targetFiles.filter (fun f => hasPrefix f jdkMarker) =
              [j] ∧
            j ∈ (fetched G url dir m).baseFiles ∧
            ∀ b ∈ (fetched G url dir m).baseFiles,
              hasPrefix b jdkMarker = true → strLe j b = true) ∧
      ((∀ b ∈ (fetched G url dir m).baseFiles, hasPrefix b jdkMarker = false) →
        (selection G fs url dir m).1.targetFiles.filter (fun f => hasPrefix f jdkMarker) =
          []) := by
  obtain ⟨v, hv, -, -⟩ := selection_shape G fs url dir m
  have hext : (v.flatMap (categoryFiles m)).filter (fun f => hasPrefix f jdkMarker) = [] := by
    rw [List.filter_eq_nil_iff]
    intro f hf
    rw [List.mem_flatMap] at hf
    obtain ⟨c, -, hf⟩ := hf
    rw [categoryFiles, List.mem_filter] at hf
    simp [(hasPrefix_extensionsSlash f (hasPrefix_append_left _ _ _ hf.2)).2.1]
  have hnon :
      ((fetched G url dir m).baseFiles.filter (fun s => !hasPrefix s jdkMarker)).filter
        (fun f => hasPrefix f jdkMarker) = [] := by
    rw [List.filter_eq_nil_iff]
    intro f hf
    rw [List.mem_filter] at hf
    simpa using hf.2
  have hfilter :
      (selection G fs url dir m).1.targetFiles.filter (fun f => hasPrefix f jdkMarker) =
        (selectedJDK (fetched G url dir m).baseFiles).filter
          (fun f => hasPrefix f jdkMarker) := by
    rw [hv, baseSelection, List.filter_append, List.filter_append, hext, hnon]
    simp
  refine ⟨fun b hb hp => ?_, fun ⟨b, hb, hp⟩ => ?_, fun hall => ?_⟩
  · rw [hv, baseSelection]
    refine List.mem_append_left _ (List.mem_append_left _ ?_)
    rw [List.mem_filter]
    exact ⟨hb, by simp [hp]⟩
  · rcases hsel : selectedJDK (fetched G url dir m).baseFiles with _ | ⟨j, js⟩
    · exact absurd hsel (selectedJDK_ne_nil _ b hb hp)
    · obtain ⟨h1, h2, h3, h4⟩ := mem_selectedJDK (fetched G url dir m).baseFiles j
        (by rw [hsel]; exact List.mem_cons_self _ _)
      refine ⟨j, ?_, h2, h4⟩
      rw [hfilter, h1]
      simp [h3]
  · rw [hfilter, List.filter_eq_nil_iff]
    intro f hf
    have := (mem_selectedJDK _ f hf).2
    rw [hall f this.1] at this
    simp at this

/-- C3, witness: of the base files `microsoft-jdk-21`, `microsoft-jdk-17` and
`other.zip`, the selection takes `other.zip` and `microsoft-jdk-17` and leaves
`microsoft-jdk-21`. -/
theorem jdk_selection_witness :
    (fetched simpleRuntime defaultURL cProjects
        jdkManifest).baseFiles =
        ["microsoft-jdk-17".toList, "microsoft-jdk-21".toList, "other.zip".toList] ∧
      "other.zip".toList ∈
        (selection simpleRuntime okFileSystem defaultURL cProjects
          jdkManifest).1.targetFiles ∧
      (selection simpleRuntime okFileSystem defaultURL cProjects
          jdkManifest).1.targetFiles =
        ["other.zip".toList, "microsoft-jdk-17".toList] :=
  ⟨by decide,
    (jdk_selection simpleRuntime okFileSystem defaultURL cProjects
      jdkManifest).1
      "other.zip".toList (by decide) (by decide),
    by decide⟩

/-- C4, the code at failing inputs.  The entry `extensions.zip` is not under
`extensions/`, yet it is no base file, and it has no category either, so the
partition loses it.  The entry `extensionsX/cat/f` is not under `extensions/`
either, yet it is no base file and its second segment `cat` becomes an
extension category. -/
theorem partition_drops_entry_not_under_extensions :
    hasPrefix "extensions.zip".toList extensionsSlash = false ∧
      (fetched simpleRuntime defaultURL cProjects ["extensions.zip".toList]).allFiles =
        ["extensions.zip".toList] ∧
      (fetched simpleRuntime defaultURL cProjects ["extensions.zip".toList]).baseFiles = [] ∧
      (fetched simpleRuntime defaultURL cProjects
        ["extensions.zip".toList]).extensionCategory = [] ∧
      (selection simpleRuntime okFileSystem defaultURL cProjects
        ["extensions.zip".toList]).1.targetFiles = [] ∧
      hasPrefix "extensionsX/cat/f".toList extensionsSlash = false ∧
      (fetched simpleRuntime defaultURL cProjects ["extensionsX/cat/f".toList]).baseFiles = [] ∧
      (fetched simpleRuntime defaultURL cProjects ["extensionsX/cat/f".toList]).extensionCategory =
        ["cat".toList] := by
  refine ⟨?_, ?_, ?_, ?_, ?_, ?_, ?_, ?_⟩ <;> decide

/-- C8, as the code has it: when every directory can be created and the
manifest has an extension category other than `"common"`,
`getUserSelections` returns no error, the selected
categories are the non-common categories in sorted order followed by
`"common"`, and the selected files are the unmarked base files in the order of
`baseFiles`, then the chosen toolchain file if any, then for each selected
category in turn the manifest entries that begin with `extensions/<category>`,
in manifest order. -/
theorem targetFiles_exact (G : GoRuntime) (fs : FileSystem) (url dir : Str)
    (m : List Str)
    (hfs : ∀ p, fs.mkdirAll p = none)
    (hc : ∃ c ∈ (fetched G url dir m).extensionCategory, c ≠ commonCategory) :
    (selection G fs url dir m).2 = none ∧
      (selection G fs url dir m).1.targetExtensionCategory =
        (fetched G url dir m).extensionCategory.filter (fun s => s != commonCategory) ++
          [commonCategory] ∧
      ((fetched G url dir m).extensionCategory.filter (fun s => s != commonCategory)).Sorted
        (fun a b => strLe a b = true) ∧
      (selection G fs url dir m).1.targetFiles =
        (fetched G url dir m).baseFiles.filter (fun s => !hasPrefix s jdkMarker) ++
          selectedJDK (fetched G url dir m).baseFiles ++
          ((selection G fs url dir m).1.targetExtensionCategory).flatMap
            (fun category =>
              m.filter (fun file => hasPrefix file (extensionsSlash ++ category))) := by
  rw [selection_ok G fs url dir m hfs hc]
  exact ⟨rfl, rfl, (fetched_extensionCategory_sorted G url dir m).filter _, rfl⟩

/-- C8, counterexample: the manifest of the end-to-end scenario has the
category `python`, yet on a file system where no directory can be created
`getUserSelections` returns the error of line 273 and leaves only the base
selection in `targetFiles`, which is not the list the claim describes. -/
theorem targetFiles_partial_on_mkdir_failure :
    (∃ c ∈ (fetched simpleRuntime defaultURL cProjects scenarioManifest).extensionCategory,
        c ≠ commonCategory) ∧
      (selection simpleRuntime readOnlyFileSystem defaultURL cProjects scenarioManifest).2 =
        some ⟨"read-only file system".toList⟩ ∧
      (selection simpleRuntime readOnlyFileSystem defaultURL cProjects
        scenarioManifest).1.targetExtensionCategory = ["python".toList] ∧
      (selection simpleRuntime readOnlyFileSystem defaultURL cProjects
        scenarioManifest).1.targetFiles = ["a.txt".toList, "microsoft-jdk-11.zip".toList] ∧
      (selection simpleRuntime readOnlyFileSystem defaultURL cProjects
        scenarioManifest).1.targetFiles ≠
        (fetched simpleRuntime defaultURL cProjects scenarioManifest).baseFiles.filter
            (fun s => !hasPrefix s jdkMarker) ++
          selectedJDK (fetched simpleRuntime defaultURL cProjects scenarioManifest).baseFiles ++
          ((selection simpleRuntime readOnlyFileSystem defaultURL cProjects
            scenarioManifest).1.targetExtensionCategory).flatMap
            (fun category =>
              scenarioManifest.filter
                (fun file => hasPrefix file (extensionsSlash ++ category))) ∧
      (selection simpleRuntime readOnlyFileSystem defaultURL cProjects
        scenarioManifest).1.targetFiles ≠
        ["a.txt".toList, "microsoft-jdk-11.zip".toList, "extensions/python/ext.vsix".toList,
          "extensions/common/base.vsix".toList] := by
  refine ⟨⟨"python".toList, ?_, ?_⟩, ?_, ?_, ?_, ?_, ?_⟩ <;> decide

/-- C8, witness: the manifest of the end-to-end scenario gives `a.txt`, the
toolchain archive, the `python` extension and the `common` extension, in that order. -/
theorem targetFiles_exact_witness :
    (selection simpleRuntime okFileSystem defaultURL cProjects
        scenarioManifest).2 = none ∧
      (selection simpleRuntime okFileSystem defaultURL cProjects
        scenarioManifest).1.targetFiles =
        ["a.txt".toList, "microsoft-jdk-11.zip".toList, "extensions/python/ext.vsix".toList,
          "extensions/common/base.vsix".toList] :=
  ⟨(targetFiles_exact simpleRuntime okFileSystem defaultURL cProjects
      scenarioManifest
      (fun _ => rfl) ⟨"python".toList, by decide, by decide⟩).1,
    by decide⟩

/-- C9: whatever the file system does, every selected file under
`extensions/` has a second path segment, and that segment is one of the
selected categories. -/
theorem extension_target_has_selected_category (G : GoRuntime) (fs : FileSystem)
    (url dir : Str) (m : List Str) (f : Str)
    (hf : f ∈ (selection G fs url dir m).1.targetFiles)
    (hp : hasPrefix f extensionsSlash = true) :
    ∃ c, secondSegment f = some c ∧
      c ∈ (selection G fs url dir m).1.targetExtensionCategory := by
  obtain ⟨hname, hjdk, c, hc⟩ := hasPrefix_extensionsSlash f hp
  obtain ⟨v, hv1, hv2, -⟩ := selection_shape G fs url dir m
  rw [hv1, List.mem_append] at hf
  have hbase : f ∉ baseSelection (fetched G url dir m).baseFiles := by
    intro hb
    rw [baseSelection, List.mem_append] at hb
    rcases hb with hb | hb
    · rw [List.mem_filter, mem_fetched_baseFiles] at hb
      rw [hb.1.2] at hname
      exact Bool.noConfusion hname
    · have := (mem_selectedJDK _ f hb).2.2.1
      rw [hjdk] at this
      exact Bool.noConfusion this
  rcases hf with hf | hf
  · exact absurd hf hbase
  · have hvne : v ≠ [] := by
      rintro rfl
      simp at hf
    rw [List.mem_flatMap] at hf
    obtain ⟨c', -, hf⟩ := hf
    rw [categoryFiles, List.mem_filter] at hf
    refine ⟨c, hc, ?_⟩
    rw [hv2 hvne, mem_uniqueStrings, List.mem_append, List.mem_filter, List.mem_singleton,
      mem_fetched_extensionCategory]
    by_cases hcc : c = commonCategory
    · exact Or.inr hcc
    · exact Or.inl ⟨⟨f, hf.1, hname, hc⟩, by simpa using hcc⟩

/-- C9, witness: the `python` extension of the end-to-end scenario is selected
and its category `python` is a selected category. -/
theorem extension_target_has_selected_category_witness :
    ∃ c, secondSegment "extensions/python/ext.vsix".toList = some c ∧
      c ∈ (selection simpleRuntime okFileSystem defaultURL cProjects
        scenarioManifest).1.targetExtensionCategory :=
  extension_target_has_selected_category simpleRuntime okFileSystem defaultURL cProjects
    scenarioManifest
    "extensions/python/ext.vsix".toList (by decide) (by decide)

/-! ### Download stage -/

theorem attempted_append (a b : List Event) : attempted (a ++ b) = attempted a ++ attempted b := by
  induction a with
  | nil => rfl
  | cons e a ih => cases e <;> simp [attempted, ih]

theorem downloaded_append (a b : List Event) :
    downloaded (a ++ b) = downloaded a ++ downloaded b := by
  induction a with
  | nil => rfl
  | cons e a ih => cases e <;> simp [downloaded, ih]

theorem skippedFiles_append (a b : List Event) :
    skippedFiles (a ++ b) = skippedFiles a ++ skippedFiles b := by
  induction a with
  | nil => rfl
  | cons e a ih => cases e <;> simp [skippedFiles, ih]

theorem downloadOne_spec (W : DownloadWorld) (fm : FileManager) (i n : Nat) (file : Str) :
    attempted (downloadOne W fm i n file) = [file] ∧
      downloaded (downloadOne W fm i n file) =
        (if allStepsSucceed W fm i file then [file] else []) ∧
      skippedFiles (downloadOne W fm i n file) =
        (if allStepsSucceed W fm i file then [] else [file]) := by
  unfold downloadOne allStepsSucceed
  cases h1 : W.mkdirAll i (W.dirOf (W.joinPath fm.procDir file)) <;>
    cases h2 : W.newRequest i (fm.baseURL ++ "/getFile/".toList ++ file) <;>
    cases h3 : W.doRequest i (fm.baseURL ++ "/getFile/".toList ++ file) <;>
    cases h4 : W.create i (W.joinPath fm.procDir file) <;>
    cases h5 : W.copy i (W.joinPath fm.procDir file) <;>
    simp [attempted, downloaded, skippedFiles, h1, h2, h3, h4, h5]

theorem downloadLoop_spec (W : DownloadWorld) (fm : FileManager) (n : Nat) (files : List Str) :
    ∀ i, attempted (downloadLoop W fm n i files) = files ∧
      downloaded (downloadLoop W fm n i files) = succeeding W fm i files ∧
      (skippedFiles (downloadLoop W fm n i files)).length +
        (downloaded (downloadLoop W fm n i files)).length = files.length := by
  induction files with
  | nil => intro i; simp [downloadLoop, attempted, downloaded, skippedFiles, succeeding]
  | cons f files ih =>
    intro i
    obtain ⟨h1, h2, h3⟩ := downloadOne_spec W fm i n f
    obtain ⟨g1, g2, g3⟩ := ih (i + 1)
    simp only [downloadLoop, attempted_append, downloaded_append, skippedFiles_append, h1, h2,
      h3, g1, g2, succeeding, List.length_append, List.length_cons]
    refine ⟨by simp, ?_, ?_⟩
    · cases allStepsSucceed W fm i f <;> simp
    · rw [g2] at g3
      cases allStepsSucceed W fm i f <;> simp <;> omega

/-- C6: whatever happens to each file at each of its five steps,
`downloadFiles` returns no error, announces every target once and in list
order, reports as downloaded exactly the targets whose five steps all
succeed, and reports every other target as skipped. -/
theorem downloadFiles_isolates_failures (W : DownloadWorld) (fm : FileManager) :
    (downloadFiles W fm).2 = none ∧
      attempted (downloadFiles W fm).1 = fm.targetFiles ∧
      downloaded (downloadFiles W fm).1 = succeeding W fm 0 fm.targetFiles ∧
      (skippedFiles (downloadFiles W fm).1).length + (downloaded (downloadFiles W fm).1).length =
        fm.targetFiles.length := by
  obtain ⟨h1, h2, h3⟩ := downloadLoop_spec W fm fm.targetFiles.length fm.targetFiles 0
  exact ⟨rfl, h1, h2, h3⟩

/-- C6, scenario of the specification: when the second of five targets fails
(here at the request), all five are attempted and the other four are downloaded. -/
theorem downloadFiles_isolates_failures_witness :
    attempted (downloadFiles (DownloadWorld.failing (fun i => if i = 1 then 3 else 0))
        fiveTargets).1 =
        ["f1".toList, "f2".toList, "f3".toList, "f4".toList, "f5".toList] ∧
      downloaded (downloadFiles (DownloadWorld.failing (fun i => if i = 1 then 3 else 0))
        fiveTargets).1 =
        ["f1".toList, "f3".toList, "f4".toList, "f5".toList] :=
  ⟨(downloadFiles_isolates_failures _ _).2.1,
    (downloadFiles_isolates_failures _ _).2.2.1.trans (by decide)⟩

/-! ### List request -/



/-- C7, as the code has it: `fetchRemoteFiles` returns an error, leaves the
state untouched and makes `run` end with that error before any selection or
download, when the request cannot be built, when it cannot be sent, and when
the body is not a JSON array of strings with `null` let pass (as an element
and in place of the array).  The status code plays no part: whatever it is, a
body that is such an array gives no error, a JSON array of strings is
partitioned, a `null` element is taken as the empty string, and the body
`null` is taken as the empty list. -/
theorem fetchRemoteFiles_error_cases (G : GoRuntime) (net : ListExchange) (fs : FileSystem)
    (W : DownloadWorld) (fm : FileManager) :
    (∀ err, net.newRequest (fm.baseURL ++ "/getAll".toList) = some err →
        fetchRemoteFiles G net fm = (fm, some err) ∧
          runStages G net fs W fm = (fm, [], some err)) ∧
      (∀ err, net.newRequest (fm.baseURL ++ "/getAll".toList) = none →
        net.doRequest (fm.baseURL ++ "/getAll".toList) = .error err →
        fetchRemoteFiles G net fm = (fm, some err) ∧
          runStages G net fs W fm = (fm, [], some err)) ∧
      (∀ status body, net.newRequest (fm.baseURL ++ "/getAll".toList) = none →
        net.doRequest (fm.baseURL ++ "/getAll".toList) = .ok ⟨status, body⟩ →
        (isStringArrayOrNull body = false →
          ∃ err, fetchRemoteFiles G net fm = (fm, some err) ∧
            runStages G net fs W fm = (fm, [], some err)) ∧
        (isStringArrayOrNull body = true → (fetchRemoteFiles G net fm).2 = none) ∧
        (∀ files, body = .ok (jsonStrings files) →
          fetchRemoteFiles G net fm = (partitionFiles G fm files, none)) ∧
        (∀ elems, body = .ok (.arr elems) → elems.all isStringOrNull = true →
          fetchRemoteFiles G net fm =
            (partitionFiles G fm (elems.map elementString), none)) ∧
        (body = .ok .null → fetchRemoteFiles G net fm = (partitionFiles G fm [], none))) := by
  refine ⟨fun err h => ?_, fun err h1 h2 => ?_, fun status body h1 h2 => ⟨fun hb => ?_,
    fun hb => ?_, fun files hb => ?_, fun elems hb hall => ?_, fun hb => ?_⟩⟩
  · have hf : fetchRemoteFiles G net fm = (fm, some err) := by simp only [fetchRemoteFiles, h]
    exact ⟨hf, by simp [runStages, hf]⟩
  · have hf : fetchRemoteFiles G net fm = (fm, some err) := by simp only [fetchRemoteFiles, h1, h2]
    exact ⟨hf, by simp [runStages, hf]⟩
  · obtain ⟨err, herr⟩ := (decodeStrings_error_iff body).2 hb
    have hf : fetchRemoteFiles G net fm = (fm, some err) := by
      simp only [fetchRemoteFiles, h1, h2, herr]
    exact ⟨err, hf, by simp [runStages, hf]⟩
  · cases hd : decodeStrings body with
    | error err =>
      have := (decodeStrings_error_iff body).1 ⟨err, hd⟩
      rw [hb] at this
      exact Bool.noConfusion this
    | ok files => simp only [fetchRemoteFiles, h1, h2, hd]
  · subst hb
    simp only [fetchRemoteFiles, h1, h2, decodeStrings_jsonStrings]
  · subst hb
    simp only [fetchRemoteFiles, h1, h2, decodeStrings, decodeElements_ok elems hall]
  · subst hb
    simp only [fetchRemoteFiles, h1, h2, decodeStrings]

/-- C7, witness: a body that is a JSON object, and a body that is not JSON,
make `run` end with an error before any selection or download, under status
200 as under status 500. -/
theorem fetchRemoteFiles_error_cases_witness :
    (∃ err, runStages simpleRuntime (ListExchange.answering 200 (.ok (.obj []))) okFileSystem
        (DownloadWorld.failing (fun _ => 0)) (FileManager.fresh defaultURL cProjects) =
        (FileManager.fresh defaultURL cProjects, [], some err)) ∧
      ∃ err, runStages simpleRuntime
        (ListExchange.answering 500 (.error ⟨"invalid character".toList⟩)) okFileSystem
        (DownloadWorld.failing (fun _ => 0)) (FileManager.fresh defaultURL cProjects) =
        (FileManager.fresh defaultURL cProjects, [], some err) :=
  ⟨(((fetchRemoteFiles_error_cases simpleRuntime (ListExchange.answering 200 (.ok (.obj [])))
      okFileSystem (DownloadWorld.failing (fun _ => 0))
      (FileManager.fresh defaultURL cProjects)).2.2 200 (.ok (.obj [])) rfl rfl).1 rfl).imp
      (fun _ h => h.2),
    (((fetchRemoteFiles_error_cases simpleRuntime
      (ListExchange.answering 500 (.error ⟨"invalid character".toList⟩))
      okFileSystem (DownloadWorld.failing (fun _ => 0))
      (FileManager.fresh defaultURL cProjects)).2.2 500
      (.error ⟨"invalid character".toList⟩) rfl rfl).1 rfl).imp (fun _ h => h.2)⟩

/-- C7, counterexample.  A response with status 404 whose body is the JSON
array `["a.txt"]` is accepted: `fetchRemoteFiles` returns no error, and `run`
goes on to select `a.txt` and to download it.  A response with status 200
whose body is `null`, or the array `[null]`, is no JSON array of strings and
is accepted too, the first as the empty list and the second as the list of
the empty string. -/
theorem non2xx_list_response_accepted :
    (fetchRemoteFiles simpleRuntime
        (ListExchange.answering 404 (.ok (jsonStrings ["a.txt".toList])))
        (FileManager.fresh defaultURL cProjects)).2 = none ∧
      (fetchRemoteFiles simpleRuntime
        (ListExchange.answering 404 (.ok (jsonStrings ["a.txt".toList])))
        (FileManager.fresh defaultURL cProjects)).1.baseFiles = ["a.txt".toList] ∧
      (runStages simpleRuntime (ListExchange.answering 404 (.ok (jsonStrings ["a.txt".toList])))
        okFileSystem (DownloadWorld.failing (fun _ => 0))
        (FileManager.fresh defaultURL cProjects)).2.2 = none ∧
      (runStages simpleRuntime (ListExchange.answering 404 (.ok (jsonStrings ["a.txt".toList])))
        okFileSystem (DownloadWorld.failing (fun _ => 0))
        (FileManager.fresh defaultURL cProjects)).1.targetFiles = ["a.txt".toList] ∧
      (runStages simpleRuntime (ListExchange.answering 404 (.ok (jsonStrings ["a.txt".toList])))
        okFileSystem (DownloadWorld.failing (fun _ => 0))
        (FileManager.fresh defaultURL cProjects)).2.1 =
        [Event.downloading 1 1 "a.txt".toList, Event.completed "a.txt".toList] ∧
      isStringArray (.ok .null) = false ∧
      (fetchRemoteFiles simpleRuntime (ListExchange.answering 200 (.ok .null))
        (FileManager.fresh defaultURL cProjects)).2 = none ∧
      (fetchRemoteFiles simpleRuntime (ListExchange.answering 200 (.ok .null))
        (FileManager.fresh defaultURL cProjects)).1.allFiles = [] ∧
      isStringArray (.ok (.arr [.null])) = false ∧
      (fetchRemoteFiles simpleRuntime (ListExchange.answering 200 (.ok (.arr [.null])))
        (FileManager.fresh defaultURL cProjects)).2 = none ∧
      (fetchRemoteFiles simpleRuntime (ListExchange.answering 200 (.ok (.arr [.null])))
        (FileManager.fresh defaultURL cProjects)).1.allFiles = [[]] := by
  refine ⟨?_, ?_, ?_, ?_, ?_, ?_, ?_, ?_, ?_, ?_, ?_⟩ <;> decide

/-! ### PATH registration -/

theorem not_mem_of_mem_split (sep : Char) (s : Str) : ∀ x ∈ split sep s, sep ∉ x := by
  induction s with
  | nil => intro x hx; simp [split] at hx; simp [hx]
  | cons c cs ih =>
    intro x hx
    simp only [split] at hx
    split at hx
    · rcases List.mem_cons.1 hx with h | h
      · simp [h]
      · exact ih x h
    · next hc =>
      rcases hs : split sep cs with _ | ⟨y, t⟩
      · exact absurd hs (split_ne_nil _ _)
      · rw [hs] at hx ih
        rcases List.mem_cons.1 hx with h | h
        · subst h
          intro hmem
          rcases List.mem_cons.1 hmem with h' | h'
          · exact hc h'.symm
          · exact ih y (List.mem_cons_self _ _) h'
        · exact ih x (List.mem_cons_of_mem _ h)

theorem split_join_sep (sep : Char) (F : List Str) (hF : ∀ s ∈ F, sep ∉ s) (hne : F ≠ []) :
    split sep (join [sep] F ++ [sep]) = F ++ [[]] := by
  induction F with
  | nil => exact absurd rfl hne
  | cons a F ih =>
    have ha : sep ∉ a := hF a (List.mem_cons_self _ _)
    cases F with
    | nil =>
      simp only [join]
      rw [split_append_sep sep a [] ha]
      simp [split]
    | cons b rest =>
      have h2 := ih (fun s hs => hF s (List.mem_cons_of_mem _ hs)) (by simp)
      have : join [sep] (a :: b :: rest) ++ [sep] =
          a ++ sep :: (join [sep] (b :: rest) ++ [sep]) := by simp [join]
      rw [this, split_append_sep sep a _ ha, h2]
      simp

theorem appendAbsent_foldl (pv : List Str) (d : List Str) :
    ∀ k r : List Str, (∀ x, x ∈ k ↔ x ∈ r) → (∀ x ∈ r, x ∉ pv) →
      d.foldl (fun pathValues target =>
          if !contains pathValues target then pathValues ++ [target] else pathValues)
        (pv ++ r) =
      pv ++ ((d.filter (fun x => !contains pv x)).foldl uniqueStep (k, r)).2 := by
  induction d with
  | nil => intro k r _ _; simp
  | cons a d ih =>
    intro k r hk hr
    rw [List.foldl_cons, List.filter_cons]
    by_cases hpv : a ∈ pv
    · have h1 : contains (pv ++ r) a = true := (contains_iff _ _).2 (by simp [hpv])
      have h2 : contains pv a = true := (contains_iff _ _).2 hpv
      simp only [h1, h2, Bool.not_true, Bool.false_eq_true, if_false]
      exact ih k r hk hr
    · have h2 : contains pv a = false := by
        rw [← Bool.not_eq_true, contains_iff]; exact hpv
      simp only [h2, Bool.not_false, if_true, List.foldl_cons]
      by_cases hr' : a ∈ r
      · have h1 : contains (pv ++ r) a = true := (contains_iff _ _).2 (by simp [hr'])
        have hstep : uniqueStep (k, r) a = (k, r) := by simp [uniqueStep, (hk a).2 hr']
        simp only [h1, Bool.not_true, Bool.false_eq_true, if_false, hstep]
        exact ih k r hk hr
      · have h1 : contains (pv ++ r) a = false := by
          rw [← Bool.not_eq_true, contains_iff]; simp [hpv, hr']
        have hstep : uniqueStep (k, r) a = (a :: k, r ++ [a]) := by
          have : a ∉ k := fun h => hr' ((hk a).1 h)
          simp [uniqueStep, this]
        simp only [h1, Bool.not_false, if_true, hstep]
        rw [List.append_assoc]
        refine ih (a :: k) (r ++ [a]) (fun x => ?_) (fun x hx => ?_)
        · simp only [List.mem_cons, List.mem_append, List.mem_singleton, hk x, List.not_mem_nil,
            or_false]
          exact Or.comm
        · rcases List.mem_append.1 hx with h | h
          · exact hr x h
          · rw [List.mem_singleton] at h; subst h; exact hpv

theorem newPath_eq (p : Str) (d : List Str) :
    newPath p d =
      join [';']
          ((split ';' p ++ uniqueStrings (d.filter (fun x => !contains (split ';' p) x))).filter
            (fun s => trimSpace s != [])) ++ [';'] := by
  have h1 := appendAbsent_foldl (split ';' p) d [] [] (fun _ => Iff.rfl) (by simp)
  rw [List.append_nil] at h1
  have h2 := filterFiles_foldl (fun s => trimSpace s != [])
    (split ';' p ++ uniqueStrings (d.filter (fun x => !contains (split ';' p) x))) []
  rw [List.nil_append] at h2
  show join [';'] (List.foldl _ [] (List.foldl _ (split ';' p) d)) ++ [';'] = _
  rw [h1]
  exact congrArg (fun l => join [';'] l ++ [';']) h2

theorem addedDirs_spec (p : Str) (d : List Str) :
    (addedDirs p d).Nodup ∧ (addedDirs p d).Sublist d ∧
      ∀ x, x ∈ addedDirs p d ↔ x ∈ d ∧ x ∉ split ';' p := by
  refine ⟨nodup_uniqueStrings _, (sublist_uniqueStrings _).trans (List.filter_sublist _),
    fun x => ?_⟩
  rw [addedDirs, mem_uniqueStrings, List.mem_filter]
  simp [← contains_iff]

theorem newPath_eq_join (p : Str) (d : List Str) (hblank : ∀ x ∈ d, trimSpace x ≠ []) :
    newPath p d = join [';'] (keptSegments p ++ addedDirs p d) ++ [';'] := by
  rw [newPath_eq, List.filter_append]
  have : (uniqueStrings (d.filter (fun x => !contains (split ';' p) x))).filter
      (fun s => trimSpace s != []) =
      uniqueStrings (d.filter (fun x => !contains (split ';' p) x)) := by
    rw [List.filter_eq_self]
    intro x hx
    have := hblank x ((addedDirs_spec p d).2.2 x |>.1 hx).1
    simpa using this
  rw [this]
  rfl

/-- C5: when there are directories `d` to register, none blank and none
holding a `;`, the user agrees, the backup succeeds and the stored `Path` is
`p`, the value handed to `setx` is the non-blank segments of `p` in their
order, followed by the directories of `d` that are no segment of `p` (each
once, in order), joined by `;` and ended by one `;`.  Split at `;` the value
gives back exactly these segments and one empty piece after the trailing `;`;
no segment is blank, and the added directories are distinct, taken from `d`,
and absent from `p`. -/
theorem registerPaths_written_value (G : GoRuntime) (W : RegistryWorld) (fm : FileManager)
    (answer p : Str) (d : List Str)
    (hd : difference W.directoriesWithBin fm.existsDirs = d) (hne : d ≠ [])
    (hblank : ∀ x ∈ d, trimSpace x ≠ []) (hsemi : ∀ x ∈ d, ';' ∉ x)
    (hans : W.getUserInput = .ok answer)
    (hyes : hasPrefix (G.toLower answer) "y".toList = true ∨ answer = [])
    (hexp : W.regExport = none) (hreg : W.getRegistryValue = .ok p) :
    (registerPaths G W fm).1 =
        some (join [';'] (keptSegments p ++ addedDirs p d) ++ [';']) ∧
      (registerPaths G W fm).2 =
        W.setx (join [';'] (keptSegments p ++ addedDirs p d) ++ [';']) ∧
      split ';' (join [';'] (keptSegments p ++ addedDirs p d) ++ [';']) =
        keptSegments p ++ addedDirs p d ++ [[]] ∧
      (∀ s ∈ keptSegments p ++ addedDirs p d, trimSpace s ≠ []) ∧
      (addedDirs p d).Nodup ∧ (addedDirs p d).Sublist d ∧
      ∀ x, x ∈ addedDirs p d ↔ x ∈ d ∧ x ∉ split ';' p := by
  obtain ⟨hA1, hA2, hA3⟩ := addedDirs_spec p d
  have hnb : ∀ s ∈ keptSegments p ++ addedDirs p d, trimSpace s ≠ [] := by
    intro s hs
    rcases List.mem_append.1 hs with h | h
    · rw [keptSegments, List.mem_filter] at h
      simpa using h.2
    · exact hblank s ((hA3 s).1 h).1
  have hsem : ∀ s ∈ keptSegments p ++ addedDirs p d, ';' ∉ s := by
    intro s hs
    rcases List.mem_append.1 hs with h | h
    · rw [keptSegments, List.mem_filter] at h
      exact not_mem_of_mem_split ';' p s h.1
    · exact hsemi s ((hA3 s).1 h).1
  have hnonempty : keptSegments p ++ addedDirs p d ≠ [] := by
    obtain ⟨x, hx⟩ := List.exists_mem_of_ne_nil d hne
    have : x ∈ keptSegments p ++ addedDirs p d := by
      by_cases hxs : x ∈ split ';' p
      · refine List.mem_append_left _ ?_
        rw [keptSegments, List.mem_filter]
        exact ⟨hxs, by simpa using hblank x hx⟩
      · exact List.mem_append_right _ ((hA3 x).2 ⟨hx, hxs⟩)
    exact List.ne_nil_of_mem this
  have hlen : ¬ d.length = 0 := fun h => hne (List.length_eq_zero.1 h)
  have hgo : ¬ ((!hasPrefix (G.toLower answer) "y".toList && answer != []) = true) := by
    rcases hyes with h | h
    · simp only [h]; simp
    · simp [h]
  have hreg' : registerPaths G W fm =
      (some (newPath p d), W.setx (newPath p d)) := by
    simp only [registerPaths, hd, hlen, hans, hexp, hreg, if_false, hgo]
    cases W.setx (newPath p d) <;> rfl
  rw [hreg', newPath_eq_join p d hblank]
  exact ⟨rfl, rfl, split_join_sep ';' _ hsem hnonempty, hnb, hA1, hA2, hA3⟩

/-- C5, witness: with `Path` equal to `C:\x;` and the new directory
`C:\projects\git\bin`, the value written is `C:\x;C:\projects\git\bin;`. -/
theorem registerPaths_written_value_witness :
    (registerPaths simpleRuntime
        (RegistryWorld.agreeing scenarioPath [gitBin])
        (FileManager.fresh defaultURL cProjects)).1 = some "C:\\x;C:\\projects\\git\\bin;".toList ∧
      split ';' "C:\\x;C:\\projects\\git\\bin;".toList =
        ["C:\\x".toList, gitBin, []] :=
  ⟨(registerPaths_written_value simpleRuntime
      (RegistryWorld.agreeing scenarioPath [gitBin])
      (FileManager.fresh defaultURL cProjects) "y".toList scenarioPath [gitBin]
      (by decide) (by decide) (by decide) (by decide) rfl (Or.inl (by decide)) rfl rfl).1.trans
      (by decide),
    by decide⟩

theorem split_newPath (F : List Str) (hF : ∀ s ∈ F, ';' ∉ s)
    (hnb : ∀ s ∈ F, trimSpace s ≠ []) :
    (split ';' (join [';'] F ++ [';'])).filter (fun s => trimSpace s != []) = F ∧
      ∀ x, x ∈ split ';' (join [';'] F ++ [';']) ↔ x ∈ F ∨ x = [] := by
  have hself : F.filter (fun s => trimSpace s != []) = F := by
    rw [List.filter_eq_self]
    intro x hx
    simpa using hnb x hx
  by_cases hne : F = []
  · subst hne
    refine ⟨by simp [join, split, trimSpace], fun x => ?_⟩
    simp [join, split]
  · rw [split_join_sep ';' F hF hne]
    refine ⟨?_, fun x => by simp⟩
    rw [List.filter_append, hself]
    simp [trimSpace]

/-- C10: when no directory of `d` holds a `;`, computing the new `Path` from
the value that the computation itself produced, with the same directories,
gives that value again. -/
theorem newPath_idempotent (p : Str) (d : List Str) (hsemi : ∀ x ∈ d, ';' ∉ x) :
    newPath (newPath p d) d = newPath p d := by
  have hF : ∀ s ∈ (split ';' p ++ uniqueStrings (d.filter
      (fun x => !contains (split ';' p) x))).filter (fun s => trimSpace s != []), ';' ∉ s := by
    intro s hs
    rw [List.mem_filter, List.mem_append] at hs
    rcases hs.1 with h | h
    · exact not_mem_of_mem_split ';' p s h
    · exact hsemi s (((addedDirs_spec p d).2.2 s).1 h).1
  have hnb : ∀ s ∈ (split ';' p ++ uniqueStrings (d.filter
      (fun x => !contains (split ';' p) x))).filter (fun s => trimSpace s != []),
      trimSpace s ≠ [] := by
    intro s hs
    rw [List.mem_filter] at hs
    simpa using hs.2
  have hin : ∀ x ∈ d, trimSpace x ≠ [] →
      x ∈ (split ';' p ++ uniqueStrings (d.filter
        (fun x => !contains (split ';' p) x))).filter (fun s => trimSpace s != []) := by
    intro x hx hxb
    rw [List.mem_filter, List.mem_append]
    refine ⟨?_, by simpa using hxb⟩
    by_cases hxs : x ∈ split ';' p
    · exact Or.inl hxs
    · exact Or.inr (((addedDirs_spec p d).2.2 x).2 ⟨hx, hxs⟩)
  obtain ⟨h1, h2⟩ := split_newPath _ hF hnb
  rw [newPath_eq (newPath p d) d]
  rw [newPath_eq p d]
  rw [List.filter_append, h1]
  have hnil : (uniqueStrings (d.filter (fun x => !contains
      (split ';' (join [';'] ((split ';' p ++ uniqueStrings (d.filter
        (fun x => !contains (split ';' p) x))).filter (fun s => trimSpace s != [])) ++ [';']))
      x))).filter (fun s => trimSpace s != []) = [] := by
    rw [List.filter_eq_nil_iff]
    intro x hx
    rw [mem_uniqueStrings, List.mem_filter] at hx
    intro hxb
    have hxin := hin x hx.1 (by simpa using hxb)
    have : contains (split ';' (join [';'] ((split ';' p ++ uniqueStrings (d.filter
        (fun x => !contains (split ';' p) x))).filter (fun s => trimSpace s != [])) ++ [';']))
        x = true := (contains_iff _ _).2 ((h2 x).2 (Or.inl hxin))
    rw [this] at hx
    simp at hx
  rw [hnil, List.append_nil]

/-- C10, witness: registering `C:\projects\git\bin` against `C:\x;` and then
against the result leaves `C:\x;C:\projects\git\bin;`. -/
theorem newPath_idempotent_witness :
    newPath scenarioPath [gitBin] =
        "C:\\x;C:\\projects\\git\\bin;".toList ∧
      newPath (newPath scenarioPath [gitBin])
        [gitBin] =
        newPath scenarioPath [gitBin] :=
  ⟨by decide, newPath_idempotent scenarioPath [gitBin] (by decide)⟩

end Javelin
